import Mathlib

/-!
# Camera (src/Camera.cpp): shallow embedding and verified properties

The camera code is written over `float` with the glm vector library.  The
embedding below is generic in the scalar type `K` (an ordered field carrying
the libm intrinsics the code calls), so every definition is an executable
function; the theorems are stated over exact real arithmetic, `K = ℝ`.

Conventions.
* `glm::mat4` is column major: `m[c][r]` is column `c`, row `r`.  A `Mat4` is
  four column vectors `c0 .. c3`, so the C++ `m[2][3]` is `m.c2.w`.
* A division by zero inside `glm::normalize` (the source of NaN components in
  the C++ code) is modelled by `none`: a function returning `Option` returns
  `none` exactly when some normalisation it performs divides by zero.
* The scalar divisions of the matrix builders (`1 / w_half`, `c / (c + 1)`)
  are the division of the field.
* Locals that are assigned and never read (`newRight` in `rotateV` and
  `rotateW`, the fallback `nearPlane` in `getScaleMatrix`, both fallback planes
  in `getUnhingeMatrix`) have no effect on the result and do not appear.
* The diagnostics written to `std::cerr` are not part of the state and are
  left out.
-/

namespace CameraSpec

/-- Scalar intrinsics used by the camera code: `sqrt`, `sin`, `cos`, `tan`
and the constant behind `glm::radians` / `glm::degrees`. -/
class Libm (K : Type) where
  sqrt : K → K
  sin : K → K
  cos : K → K
  tan : K → K
  pi : K

/-- Exact real interpretation of the intrinsics. -/
noncomputable instance realLibm : Libm ℝ where
  sqrt := Real.sqrt
  sin := Real.sin
  cos := Real.cos
  tan := Real.tan
  pi := Real.pi

/-- The type `glm::vec3`. -/
@[ext]
structure Vec3 (K : Type) where
  x : K
  y : K
  z : K

/-- The type `glm::vec4`. -/
@[ext]
structure Vec4 (K : Type) where
  x : K
  y : K
  z : K
  w : K

/-- The type `glm::mat4`, stored as its four columns. -/
@[ext]
structure Mat4 (K : Type) where
  c0 : Vec4 K
  c1 : Vec4 K
  c2 : Vec4 K
  c3 : Vec4 K

section Glm

variable {K : Type} [LinearOrderedField K]

/-- Component-wise `a + b` on `glm::vec3`. -/
def Vec3.add (a b : Vec3 K) : Vec3 K :=
  ⟨a.x + b.x, a.y + b.y, a.z + b.z⟩

/-- Component-wise `a - b` on `glm::vec3`. -/
def Vec3.sub (a b : Vec3 K) : Vec3 K :=
  ⟨a.x - b.x, a.y - b.y, a.z - b.z⟩

/-- Unary minus on `glm::vec3`. -/
def Vec3.neg (a : Vec3 K) : Vec3 K :=
  ⟨-a.x, -a.y, -a.z⟩

/-- The product `v * k` of a `glm::vec3` with a scalar. -/
def Vec3.scale (v : Vec3 K) (k : K) : Vec3 K :=
  ⟨v.x * k, v.y * k, v.z * k⟩

/-- The zero vector. -/
def Vec3.zero : Vec3 K :=
  ⟨0, 0, 0⟩

/-- Component-wise `a + b` on `glm::vec4`. -/
def Vec4.add (a b : Vec4 K) : Vec4 K :=
  ⟨a.x + b.x, a.y + b.y, a.z + b.z, a.w + b.w⟩

/-- The product `v * k` of a `glm::vec4` with a scalar. -/
def Vec4.scale (v : Vec4 K) (k : K) : Vec4 K :=
  ⟨v.x * k, v.y * k, v.z * k, v.w * k⟩

/-- The constructor `glm::vec4(v, w)`. -/
def vec4 (v : Vec3 K) (w : K) : Vec4 K :=
  ⟨v.x, v.y, v.z, w⟩

/-- The truncating conversion `glm::vec3(v)` of a `glm::vec4`. -/
def Vec4.xyz (v : Vec4 K) : Vec3 K :=
  ⟨v.x, v.y, v.z⟩

/-- Component `v[i]` of a `glm::vec4`. -/
def Vec4.get (v : Vec4 K) (i : Fin 4) : K :=
  match i with
  | 0 => v.x
  | 1 => v.y
  | 2 => v.z
  | 3 => v.w

/-- Column `m[c]` of a `glm::mat4`. -/
def Mat4.col (m : Mat4 K) (c : Fin 4) : Vec4 K :=
  match c with
  | 0 => m.c0
  | 1 => m.c1
  | 2 => m.c2
  | 3 => m.c3

/-- Entry `m[c][r]` of a `glm::mat4` (column `c`, row `r`). -/
def Mat4.get (m : Mat4 K) (c r : Fin 4) : K :=
  (m.col c).get r

/-- The function `glm::dot` on `glm::vec3`. -/
def dot (a b : Vec3 K) : K :=
  a.x * b.x + a.y * b.y + a.z * b.z

/-- The function `glm::cross`. -/
def cross (a b : Vec3 K) : Vec3 K :=
  ⟨a.y * b.z - b.y * a.z, a.z * b.x - b.z * a.x, a.x * b.y - b.x * a.y⟩

/-- The matrix `glm::mat4(1.0)`. -/
def Mat4.identity : Mat4 K :=
  ⟨⟨1, 0, 0, 0⟩, ⟨0, 1, 0, 0⟩, ⟨0, 0, 1, 0⟩, ⟨0, 0, 0, 1⟩⟩

/-- The product `m * v` of a `glm::mat4` with a `glm::vec4`: the linear
combination of the columns of `m` with the components of `v`. -/
def Mat4.mulVec (m : Mat4 K) (v : Vec4 K) : Vec4 K :=
  ((m.c0.scale v.x).add (m.c1.scale v.y)).add ((m.c2.scale v.z).add (m.c3.scale v.w))

/-- The product `a * b` of two `glm::mat4`: column `c` of the result is
`a[0]*b[c][0] + a[1]*b[c][1] + a[2]*b[c][2] + a[3]*b[c][3]`. -/
def Mat4.mul (a b : Mat4 K) : Mat4 K :=
  let column := fun (v : Vec4 K) =>
    (((a.c0.scale v.x).add (a.c1.scale v.y)).add (a.c2.scale v.z)).add (a.c3.scale v.w)
  ⟨column b.c0, column b.c1, column b.c2, column b.c3⟩

/-- The product `m * k` of a `glm::mat4` with a scalar. -/
def Mat4.scale (m : Mat4 K) (k : K) : Mat4 K :=
  ⟨m.c0.scale k, m.c1.scale k, m.c2.scale k, m.c3.scale k⟩

/-- The function `glm::translate(m, v)`: `m` with its last column replaced by
`m[0]*v[0] + m[1]*v[1] + m[2]*v[2] + m[3]`. -/
def translateMat (m : Mat4 K) (v : Vec3 K) : Mat4 K :=
  { m with c3 := (((m.c0.scale v.x).add (m.c1.scale v.y)).add (m.c2.scale v.z)).add m.c3 }

/-- The local `Inverse` of `glm::inverse` on `glm::mat4`: the signed
cofactors of `m`, before the division by the determinant. -/
def cofactors (m : Mat4 K) : Mat4 K :=
  let coef00 := m.c2.z * m.c3.w - m.c3.z * m.c2.w
  let coef02 := m.c1.z * m.c3.w - m.c3.z * m.c1.w
  let coef03 := m.c1.z * m.c2.w - m.c2.z * m.c1.w
  let coef04 := m.c2.y * m.c3.w - m.c3.y * m.c2.w
  let coef06 := m.c1.y * m.c3.w - m.c3.y * m.c1.w
  let coef07 := m.c1.y * m.c2.w - m.c2.y * m.c1.w
  let coef08 := m.c2.y * m.c3.z - m.c3.y * m.c2.z
  let coef10 := m.c1.y * m.c3.z - m.c3.y * m.c1.z
  let coef11 := m.c1.y * m.c2.z - m.c2.y * m.c1.z
  let coef12 := m.c2.x * m.c3.w - m.c3.x * m.c2.w
  let coef14 := m.c1.x * m.c3.w - m.c3.x * m.c1.w
  let coef15 := m.c1.x * m.c2.w - m.c2.x * m.c1.w
  let coef16 := m.c2.x * m.c3.z - m.c3.x * m.c2.z
  let coef18 := m.c1.x * m.c3.z - m.c3.x * m.c1.z
  let coef19 := m.c1.x * m.c2.z - m.c2.x * m.c1.z
  let coef20 := m.c2.x * m.c3.y - m.c3.x * m.c2.y
  let coef22 := m.c1.x * m.c3.y - m.c3.x * m.c1.y
  let coef23 := m.c1.x * m.c2.y - m.c2.x * m.c1.y
  ⟨⟨m.c1.y * coef00 - m.c1.z * coef04 + m.c1.w * coef08,
    -(m.c0.y * coef00 - m.c0.z * coef04 + m.c0.w * coef08),
    m.c0.y * coef02 - m.c0.z * coef06 + m.c0.w * coef10,
    -(m.c0.y * coef03 - m.c0.z * coef07 + m.c0.w * coef11)⟩,
   ⟨-(m.c1.x * coef00 - m.c1.z * coef12 + m.c1.w * coef16),
    m.c0.x * coef00 - m.c0.z * coef12 + m.c0.w * coef16,
    -(m.c0.x * coef02 - m.c0.z * coef14 + m.c0.w * coef18),
    m.c0.x * coef03 - m.c0.z * coef15 + m.c0.w * coef19⟩,
   ⟨m.c1.x * coef04 - m.c1.y * coef12 + m.c1.w * coef20,
    -(m.c0.x * coef04 - m.c0.y * coef12 + m.c0.w * coef20),
    m.c0.x * coef06 - m.c0.y * coef14 + m.c0.w * coef22,
    -(m.c0.x * coef07 - m.c0.y * coef15 + m.c0.w * coef23)⟩,
   ⟨-(m.c1.x * coef08 - m.c1.y * coef16 + m.c1.z * coef20),
    m.c0.x * coef08 - m.c0.y * coef16 + m.c0.z * coef20,
    -(m.c0.x * coef10 - m.c0.y * coef18 + m.c0.z * coef22),
    m.c0.x * coef11 - m.c0.y * coef19 + m.c0.z * coef23⟩⟩

/-- The local `Dot1` of `glm::inverse`: the determinant of `m`, expanded along
the first column with the cofactors above. -/
def determinant (m : Mat4 K) : K :=
  let inv := cofactors m
  (m.c0.x * inv.c0.x + m.c0.y * inv.c1.x) + (m.c0.z * inv.c2.x + m.c0.w * inv.c3.x)

/-- The function `glm::inverse` on `glm::mat4`: the cofactor matrix times one
over the determinant; `none` when that division is by zero. -/
def inverse (m : Mat4 K) : Option (Mat4 K) :=
  if determinant m = 0 then none
  else
    let oneOverDeterminant := 1 / determinant m
    some ((cofactors m).scale oneOverDeterminant)

variable [Libm K]

/-- The function `glm::radians`. -/
def radians (deg : K) : K :=
  deg * (Libm.pi / 180)

/-- The function `glm::degrees`. -/
def degrees (rad : K) : K :=
  rad * (180 / Libm.pi)

/-- The function `glm::length` on `glm::vec3`. -/
def length (v : Vec3 K) : K :=
  Libm.sqrt (dot v v)

/-- The function `glm::normalize`: `v * inversesqrt(dot(v, v))`, where
`inversesqrt(s) = 1 / sqrt(s)`; `none` when that division is by zero (the C++
result then has NaN components). -/
def normalize (v : Vec3 K) : Option (Vec3 K) :=
  if Libm.sqrt (dot v v) = 0 then none
  else some (v.scale (1 / Libm.sqrt (dot v v)))

/-- The function `glm::rotate(m, angle, v)`: `m` times the rotation by `angle`
(radians) about the normalised axis `v`. -/
def rotateMat (m : Mat4 K) (angle : K) (v : Vec3 K) : Option (Mat4 K) := do
  let c := Libm.cos angle
  let s := Libm.sin angle
  let axis ← normalize v
  let temp := axis.scale (1 - c)
  let r00 := c + temp.x * axis.x
  let r01 := temp.x * axis.y + s * axis.z
  let r02 := temp.x * axis.z - s * axis.y
  let r10 := temp.y * axis.x - s * axis.z
  let r11 := c + temp.y * axis.y
  let r12 := temp.y * axis.z + s * axis.x
  let r20 := temp.z * axis.x + s * axis.y
  let r21 := temp.z * axis.y - s * axis.x
  let r22 := c + temp.z * axis.z
  pure
    ⟨((m.c0.scale r00).add (m.c1.scale r01)).add (m.c2.scale r02),
     ((m.c0.scale r10).add (m.c1.scale r11)).add (m.c2.scale r12),
     ((m.c0.scale r20).add (m.c1.scale r21)).add (m.c2.scale r22),
     m.c3⟩

/-- The function `glm::lookAt(eye, center, up)` (right-handed, the glm
default). -/
def lookAt (eye center up : Vec3 K) : Option (Mat4 K) := do
  let f ← normalize (center.sub eye)
  let s ← normalize (cross f up)
  let u := cross s f
  pure
    ⟨⟨s.x, u.x, -f.x, 0⟩,
     ⟨s.y, u.y, -f.y, 0⟩,
     ⟨s.z, u.z, -f.z, 0⟩,
     ⟨-(dot s eye), -(dot u eye), dot f eye, 1⟩⟩

end Glm

/-- The member variables of `Camera`. -/
structure Camera (K : Type) where
  position : Vec3 K
  lookVector : Vec3 K
  upVector : Vec3 K
  viewAngle : K
  nearPlane : K
  farPlane : K
  screenWidth : Int
  screenHeight : Int
  screenWidthRatio : K
  rotU : K
  rotV : K
  rotW : K

section CameraOps

variable {K : Type} [LinearOrderedField K] [Libm K]

/-- The method `Camera::getEyePoint`. -/
def getEyePoint (cam : Camera K) : Vec3 K :=
  cam.position

/-- The method `Camera::getLookVector`. -/
def getLookVector (cam : Camera K) : Vec3 K :=
  cam.lookVector

/-- The method `Camera::getUpVector`. -/
def getUpVector (cam : Camera K) : Vec3 K :=
  cam.upVector

/-- The method `Camera::getViewAngle`: the stored angle, in degrees. -/
def getViewAngle (cam : Camera K) : K :=
  degrees cam.viewAngle

/-- The method `Camera::getNearPlane`. -/
def getNearPlane (cam : Camera K) : K :=
  cam.nearPlane

/-- The method `Camera::getFarPlane`. -/
def getFarPlane (cam : Camera K) : K :=
  cam.farPlane

/-- The method `Camera::getScreenWidth`. -/
def getScreenWidth (cam : Camera K) : Int :=
  cam.screenWidth

/-- The method `Camera::getScreenHeight`. -/
def getScreenHeight (cam : Camera K) : Int :=
  cam.screenHeight

/-- The method `Camera::orientLookVec`. -/
def orientLookVec (cam : Camera K) (eyePoint lookVec upVec : Vec3 K) : Option (Camera K) := do
  let lookVector ← normalize lookVec
  let right ← normalize (cross lookVector upVec)
  let upVector ← normalize (cross right lookVector)
  pure { cam with position := eyePoint, lookVector := lookVector, upVector := upVector }

/-- The method `Camera::orientLookAt`. -/
def orientLookAt (cam : Camera K) (eyePoint lookatPoint upVec : Vec3 K) : Option (Camera K) :=
  orientLookVec cam eyePoint (lookatPoint.sub eyePoint) upVec

/-- The method `Camera::getScaleMatrix`. -/
def getScaleMatrix (cam : Camera K) : Mat4 K :=
  let viewAngle := radians (getViewAngle cam)
  let nearPlane := getNearPlane cam
  let farPlane := getFarPlane cam
  let screenWidth := getScreenWidth cam
  let screenHeight := getScreenHeight cam
  let screenWidth1 :=
    if screenWidth ≤ 0 ∨ screenHeight ≤ 0 then (if screenWidth ≤ 0 then 1 else screenWidth)
    else screenWidth
  let screenHeight1 :=
    if screenWidth ≤ 0 ∨ screenHeight ≤ 0 then (if screenHeight ≤ 0 then 1 else screenHeight)
    else screenHeight
  let aspectRatio : K := (screenWidth1 : K) / (screenHeight1 : K)
  let viewAngle1 :=
    if viewAngle ≤ 0 ∨ viewAngle ≥ radians 180 then radians 45 else viewAngle
  let farPlane1 :=
    if nearPlane ≤ 0 ∨ nearPlane ≥ farPlane then 100 else farPlane
  let h_half := Libm.tan (viewAngle1 / 2) * farPlane1
  let w_half := h_half * aspectRatio
  ⟨⟨1 / w_half, 0, 0, 0⟩, ⟨0, 1 / h_half, 0, 0⟩, ⟨0, 0, 1 / farPlane1, 0⟩, ⟨0, 0, 0, 1⟩⟩

/-- The method `Camera::getInverseScaleMatrix`. -/
def getInverseScaleMatrix (cam : Camera K) : Mat4 K :=
  let viewAngle := getViewAngle cam
  let farPlane := getFarPlane cam
  let screenWidth := getScreenWidth cam
  let screenHeight := getScreenHeight cam
  let aspectRatio : K := (screenWidth : K) / (screenHeight : K)
  let h_half := Libm.tan (viewAngle / 2) * farPlane
  let w_half := h_half * aspectRatio
  ⟨⟨w_half, 0, 0, 0⟩, ⟨0, h_half, 0, 0⟩, ⟨0, 0, farPlane, 0⟩, ⟨0, 0, 0, 1⟩⟩

/-- The method `Camera::getUnhingeMatrix`.  The constant `c` is computed from
the stored planes before the validity test; the fallback values `0.1` and
`100.0` are assigned to the locals afterwards and never read. -/
def getUnhingeMatrix (cam : Camera K) : Mat4 K :=
  let nearPlane := getNearPlane cam
  let farPlane := getFarPlane cam
  let c := -(nearPlane / farPlane)
  ⟨⟨1, 0, 0, 0⟩, ⟨0, 1, 0, 0⟩, ⟨0, 0, -(1 / (c + 1)), -1⟩, ⟨0, 0, c / (c + 1), 0⟩⟩

/-- The method `Camera::getProjectionMatrix`. -/
def getProjectionMatrix (cam : Camera K) : Mat4 K :=
  (getUnhingeMatrix cam).mul (getScaleMatrix cam)

/-- The method `Camera::getModelViewMatrix`. -/
def getModelViewMatrix (cam : Camera K) : Option (Mat4 K) :=
  let eyePoint := getEyePoint cam
  let lookVector := getLookVector cam
  let upVector := getUpVector cam
  let target := eyePoint.add lookVector
  lookAt eyePoint target upVector

/-- The method `Camera::getInverseModelViewMatrix`. -/
def getInverseModelViewMatrix (cam : Camera K) : Option (Mat4 K) := do
  let eyePoint := getEyePoint cam
  let lookVector := getLookVector cam
  let upVector := getUpVector cam
  let target := eyePoint.add lookVector
  let viewMatrix ← lookAt eyePoint target upVector
  inverse viewMatrix

/-- The method `Camera::setViewAngle`. -/
def setViewAngle (cam : Camera K) (viewAngle : K) : Camera K :=
  if viewAngle ≤ 0 ∨ viewAngle ≥ 180 then { cam with viewAngle := radians 60 }
  else { cam with viewAngle := radians viewAngle }

/-- The method `Camera::setNearPlane`. -/
def setNearPlane (cam : Camera K) (nearPlane : K) : Camera K :=
  if nearPlane ≤ 0 then { cam with nearPlane := 1 / 100 }
  else { cam with nearPlane := nearPlane }

/-- The method `Camera::setFarPlane`. -/
def setFarPlane (cam : Camera K) (farPlane : K) : Camera K :=
  if farPlane ≤ cam.nearPlane then { cam with farPlane := 20 }
  else { cam with farPlane := farPlane }

/-- The method `Camera::setScreenSize`. -/
def setScreenSize (cam : Camera K) (screenWidth screenHeight : Int) : Camera K :=
  if screenWidth ≤ 0 ∨ screenHeight ≤ 0 then { cam with screenWidth := 800, screenHeight := 600 }
  else { cam with screenWidth := screenWidth, screenHeight := screenHeight }

/-- The method `Camera::rotateV`.  The local `newRight` of the C++ body is
computed and never read, so it does not appear here. -/
def rotateV (cam : Camera K) (deg : K) : Option (Camera K) :=
  let rad := radians deg
  if length cam.lookVector = 0 ∨ length cam.upVector = 0 then some cam
  else do
    let rotationMatrix ← rotateMat Mat4.identity rad cam.upVector
    let newLook := (rotationMatrix.mulVec (vec4 cam.lookVector 0)).xyz
    let lookVector ← normalize newLook
    pure { cam with lookVector := lookVector }

/-- The method `Camera::rotateU`. -/
def rotateU (cam : Camera K) (deg : K) : Option (Camera K) :=
  let rad := radians deg
  if length cam.lookVector = 0 ∨ length cam.upVector = 0 then some cam
  else
    let right := cross cam.lookVector cam.upVector
    if length right = 0 then some cam
    else do
      let right ← normalize right
      let rotationMatrix ← rotateMat Mat4.identity rad right
      let newLook := (rotationMatrix.mulVec (vec4 cam.lookVector 0)).xyz
      let newUp := (rotationMatrix.mulVec (vec4 cam.upVector 0)).xyz
      let lookVector ← normalize newLook
      let upVector ← normalize newUp
      pure { cam with lookVector := lookVector, upVector := upVector }

/-- The method `Camera::rotateW`.  The local `newRight` of the C++ body is
computed and never read, so it does not appear here. -/
def rotateW (cam : Camera K) (deg : K) : Option (Camera K) :=
  let rad := radians deg
  if length cam.lookVector = 0 ∨ length cam.upVector = 0 then some cam
  else do
    let rotationMatrix ← rotateMat Mat4.identity rad cam.lookVector
    let newUp := (rotationMatrix.mulVec (vec4 cam.upVector 0)).xyz
    let upVector ← normalize newUp
    pure { cam with upVector := upVector }

/-- The method `Camera::setRotUVW`. -/
def setRotUVW (cam : Camera K) (u v w : K) : Option (Camera K) := do
  let diffU := u - cam.rotU
  let diffV := v - cam.rotV
  let diffW := w - cam.rotW
  let cam1 ← rotateU cam diffU
  let cam2 ← rotateV cam1 diffV
  let cam3 ← rotateW cam2 diffW
  pure { cam3 with rotU := u, rotV := v, rotW := w }

/-- The method `Camera::translate`. -/
def translate (cam : Camera K) (v : Vec3 K) : Option (Camera K) := do
  let inv ← getInverseModelViewMatrix cam
  let globalTransMat := (inv.mulVec (vec4 v 0)).xyz
  pure { cam with lookVector := cam.lookVector.add globalTransMat }

/-- The method `Camera::rotate`. -/
def rotate (cam : Camera K) (point axis : Vec3 K) (deg : K) : Option (Camera K) := do
  let rad := radians deg
  let rot ← rotateMat Mat4.identity rad axis
  let rotationMatrix :=
    ((translateMat Mat4.identity point).mul rot).mul (translateMat Mat4.identity point.neg)
  let lookVector ← normalize (rotationMatrix.mulVec (vec4 cam.lookVector 0)).xyz
  let upVector ← normalize (rotationMatrix.mulVec (vec4 cam.upVector 0)).xyz
  pure { cam with lookVector := lookVector, upVector := upVector }

/-- The basis of the camera is orthonormal: `|lookVector| = 1`,
`|upVector| = 1` and `dot(lookVector, upVector) = 0`. -/
def Camera.orthonormal (cam : Camera K) : Prop :=
  length cam.lookVector = 1 ∧ length cam.upVector = 1 ∧ dot cam.lookVector cam.upVector = 0

instance (cam : Camera K) : Decidable cam.orthonormal :=
  inferInstanceAs (Decidable (_ ∧ _ ∧ _))

/-- Rodrigues form of the rotation of the direction `v` by `angle` (radians)
about the unit axis `n`: `cos·v + (1 - cos)(n·v)·n + sin·(n × v)`.  Used to
state what the upper-left block of `glm::rotate` does to a direction. -/
def rodrigues (n : Vec3 K) (angle : K) (v : Vec3 K) : Vec3 K :=
  ((v.scale (Libm.cos angle)).add (n.scale ((1 - Libm.cos angle) * dot n v))).add
    ((cross n v).scale (Libm.sin angle))

/-- A concrete camera state used as input of the examples: eye at `(0,0,2)`
looking down the negative z axis, up along y, a 60 degree view angle, planes
`0.01` and `20`, a 200 × 200 screen and zeroed rotation trackers. -/
def sampleCamera : Camera K :=
  { position := ⟨0, 0, 2⟩
    lookVector := ⟨0, 0, -1⟩
    upVector := ⟨0, 1, 0⟩
    viewAngle := radians 60
    nearPlane := 1 / 100
    farPlane := 20
    screenWidth := 200
    screenHeight := 200
    screenWidthRatio := 1
    rotU := 0
    rotV := 0
    rotW := 0 }

/-- A degenerate camera state used as input of the examples: the sample
camera with look vector `(0,2,0)` and up vector `(0,1,0)`, which are non-zero
and parallel. -/
def parallelCamera : Camera K :=
  { (sampleCamera : Camera K) with lookVector := ⟨0, 2, 0⟩, upVector := ⟨0, 1, 0⟩ }

end CameraOps

/-! ## Vector algebra over the reals -/

section VectorLemmas

@[simp] theorem libm_sqrt_real (a : ℝ) : Libm.sqrt a = Real.sqrt a := rfl

@[simp] theorem libm_sin_real (a : ℝ) : Libm.sin a = Real.sin a := rfl

@[simp] theorem libm_cos_real (a : ℝ) : Libm.cos a = Real.cos a := rfl

@[simp] theorem libm_tan_real (a : ℝ) : Libm.tan a = Real.tan a := rfl

@[simp] theorem libm_pi_real : (Libm.pi : ℝ) = Real.pi := rfl

theorem dot_self_nonneg (v : Vec3 ℝ) : 0 ≤ dot v v := by
  unfold dot
  nlinarith [mul_self_nonneg v.x, mul_self_nonneg v.y, mul_self_nonneg v.z]

theorem dot_self_eq_zero (v : Vec3 ℝ) : dot v v = 0 ↔ v = Vec3.zero := by
  constructor
  · intro h
    unfold dot at h
    have hx : v.x = 0 := by nlinarith [mul_self_nonneg v.x, mul_self_nonneg v.y, mul_self_nonneg v.z]
    have hy : v.y = 0 := by nlinarith [mul_self_nonneg v.x, mul_self_nonneg v.y, mul_self_nonneg v.z]
    have hz : v.z = 0 := by nlinarith [mul_self_nonneg v.x, mul_self_nonneg v.y, mul_self_nonneg v.z]
    exact Vec3.ext hx hy hz
  · rintro rfl
    simp [dot, Vec3.zero]

theorem length_eq_zero (v : Vec3 ℝ) : length v = 0 ↔ v = Vec3.zero := by
  unfold length
  rw [libm_sqrt_real, Real.sqrt_eq_zero (dot_self_nonneg v), dot_self_eq_zero]

theorem length_eq_one (v : Vec3 ℝ) : length v = 1 ↔ dot v v = 1 := by
  unfold length
  rw [libm_sqrt_real, Real.sqrt_eq_one]

theorem dot_scale_scale (a b : Vec3 ℝ) (k m : ℝ) :
    dot (a.scale k) (b.scale m) = k * m * dot a b := by
  simp only [dot, Vec3.scale]
  ring

theorem dot_comm (a b : Vec3 ℝ) : dot a b = dot b a := by
  simp only [dot]
  ring

theorem cross_scale_left (a b : Vec3 ℝ) (k : ℝ) : cross (a.scale k) b = (cross a b).scale k := by
  simp only [cross, Vec3.scale, Vec3.mk.injEq]
  refine ⟨?_, ?_, ?_⟩ <;> ring

theorem dot_cross_left (a b : Vec3 ℝ) : dot (cross a b) a = 0 := by
  simp only [dot, cross]
  ring

theorem dot_cross_right (a b : Vec3 ℝ) : dot (cross a b) b = 0 := by
  simp only [dot, cross]
  ring

/-- Lagrange identity. -/
theorem dot_cross_cross (a b : Vec3 ℝ) :
    dot (cross a b) (cross a b) = dot a a * dot b b - dot a b * dot a b := by
  simp only [dot, cross]
  ring

theorem scale_one (v : Vec3 ℝ) : v.scale 1 = v := by
  simp [Vec3.scale]

theorem scale_zero_iff (v : Vec3 ℝ) (k : ℝ) (hk : k ≠ 0) :
    v.scale k = Vec3.zero ↔ v = Vec3.zero := by
  simp [Vec3.scale, Vec3.zero, Vec3.ext_iff, hk]

/-- Normalising a non-zero vector succeeds and divides it by its length. -/
theorem normalize_of_ne_zero (v : Vec3 ℝ) (hv : v ≠ Vec3.zero) :
    normalize v = some (v.scale (1 / Real.sqrt (dot v v))) := by
  have h : Real.sqrt (dot v v) ≠ 0 := by
    rw [Ne, Real.sqrt_eq_zero (dot_self_nonneg v), dot_self_eq_zero]
    exact hv
  simp [normalize, h]

/-- Normalising the zero vector divides by zero. -/
theorem normalize_zero : normalize (Vec3.zero : Vec3 ℝ) = none := by
  simp [normalize, dot, Vec3.zero]

/-- The normalised vector has unit length. -/
theorem dot_normalized (v : Vec3 ℝ) (hv : v ≠ Vec3.zero) :
    dot (v.scale (1 / Real.sqrt (dot v v))) (v.scale (1 / Real.sqrt (dot v v))) = 1 := by
  have h0 : 0 < dot v v :=
    lt_of_le_of_ne (dot_self_nonneg v) (fun h => hv ((dot_self_eq_zero v).1 h.symm))
  rw [dot_scale_scale, one_div, ← mul_inv, Real.mul_self_sqrt h0.le]
  exact inv_mul_cancel₀ h0.ne'

/-- Normalising a unit vector returns it unchanged. -/
theorem normalize_of_unit (v : Vec3 ℝ) (hv : dot v v = 1) : normalize v = some v := by
  simp [normalize, hv, scale_one]

end VectorLemmas

/-! ## Orientation -/

section Orientation

/-- What `orientLookVec` computes when `lookVec` and `upVec` are not parallel:
every normalisation succeeds, and the new basis is orthonormal. -/
theorem orientLookVec_spec (cam : Camera ℝ) (eye lookVec up : Vec3 ℝ)
    (h : cross lookVec up ≠ Vec3.zero) :
    ∃ cam1, orientLookVec cam eye lookVec up = some cam1 ∧ cam1.position = eye ∧
      dot cam1.lookVector cam1.lookVector = 1 ∧ dot cam1.upVector cam1.upVector = 1 ∧
      dot cam1.lookVector cam1.upVector = 0 ∧
      cam1.lookVector = lookVec.scale (1 / Real.sqrt (dot lookVec lookVec)) := by
  have hd : lookVec ≠ Vec3.zero := by
    rintro rfl
    exact h (by simp [cross, Vec3.zero])
  have hpos : 0 < dot lookVec lookVec :=
    lt_of_le_of_ne (dot_self_nonneg _) (fun e => hd ((dot_self_eq_zero _).1 e.symm))
  have hs : 0 < Real.sqrt (dot lookVec lookVec) := Real.sqrt_pos.2 hpos
  set l := lookVec.scale (1 / Real.sqrt (dot lookVec lookVec)) with hl
  have hll : dot l l = 1 := dot_normalized lookVec hd
  have hc : cross l up ≠ Vec3.zero := by
    rw [hl, cross_scale_left]
    intro e
    exact h ((scale_zero_iff _ _ (one_div_ne_zero hs.ne')).1 e)
  set r := (cross l up).scale (1 / Real.sqrt (dot (cross l up) (cross l up))) with hr
  have hrr : dot r r = 1 := dot_normalized _ hc
  have hrl : dot r l = 0 := by
    have e : dot r l = 1 / Real.sqrt (dot (cross l up) (cross l up)) * 1 * dot (cross l up) l := by
      rw [hr, ← dot_scale_scale, scale_one]
    rw [e, dot_cross_left, mul_zero]
  have hu : dot (cross r l) (cross r l) = 1 := by
    rw [dot_cross_cross, hrr, hll, hrl]
    norm_num
  refine ⟨{ cam with position := eye, lookVector := l, upVector := cross r l }, ?_, rfl, hll, hu,
    ?_, rfl⟩
  · simp only [orientLookVec, normalize_of_ne_zero lookVec hd, ← hl, normalize_of_ne_zero _ hc,
      ← hr, normalize_of_unit _ hu, Option.bind_eq_bind, Option.some_bind, Option.pure_def]
  · show dot l (cross r l) = 0
    rw [dot_comm, dot_cross_right]

end Orientation

/-! ## Rotation primitives -/

section Rotation

/-- The matrix `glm::rotate(mat4(1), angle, a)` exists for a non-zero axis and
acts on directions as the Rodrigues rotation about the normalised axis. -/
theorem rotateMat_identity_action (angle : ℝ) (a : Vec3 ℝ) (ha : a ≠ Vec3.zero) :
    ∃ R, rotateMat Mat4.identity angle a = some R ∧
      ∀ v, (R.mulVec (vec4 v 0)).xyz = rodrigues (a.scale (1 / Real.sqrt (dot a a))) angle v := by
  simp only [rotateMat, normalize_of_ne_zero a ha, Option.bind_eq_bind, Option.some_bind,
    Option.pure_def]
  refine ⟨_, rfl, ?_⟩
  intro v
  simp only [rodrigues, Mat4.mulVec, Mat4.identity, vec4, Vec4.xyz, Vec4.add, Vec4.scale,
    Vec3.add, Vec3.scale, dot, cross, libm_cos_real, libm_sin_real, Vec3.mk.injEq]
  refine ⟨?_, ?_, ?_⟩ <;> ring

theorem rodrigues_zero (n v : Vec3 ℝ) : rodrigues n 0 v = v := by
  simp [rodrigues, Vec3.add, Vec3.scale]

/-- Vector triple product `(a × b) × c = b (a·c) - a (b·c)`. -/
theorem cross_cross (a b c : Vec3 ℝ) :
    cross (cross a b) c = (b.scale (dot a c)).sub (a.scale (dot b c)) := by
  simp only [cross, dot, Vec3.scale, Vec3.sub, Vec3.mk.injEq]
  refine ⟨?_, ?_, ?_⟩ <;> ring

theorem radians_zero : radians (0 : ℝ) = 0 := by
  simp [radians]

theorem radians_add (a b : ℝ) : radians (a + b) = radians a + radians b := by
  simp only [radians]
  ring

theorem dot_comb (a b c d : Vec3 ℝ) (p q r t : ℝ) :
    dot ((a.scale p).add (b.scale q)) ((c.scale r).add (d.scale t)) =
      p * r * dot a c + p * t * dot a d + q * r * dot b c + q * t * dot b d := by
  simp only [dot, Vec3.add, Vec3.scale]
  ring

theorem length_ne_zero_of_unit (v : Vec3 ℝ) (h : dot v v = 1) : length v ≠ 0 := by
  rw [(length_eq_one v).2 h]
  exact one_ne_zero

theorem ne_zero_of_unit (v : Vec3 ℝ) (h : dot v v = 1) : v ≠ Vec3.zero := by
  rintro rfl
  simp [dot, Vec3.zero] at h

theorem scale_inv_sqrt_of_unit (v : Vec3 ℝ) (h : dot v v = 1) :
    v.scale (1 / Real.sqrt (dot v v)) = v := by
  simp [h, scale_one]

/-- The effect of `rotateU` on an orthonormal basis: both vectors turn by the
angle in the plane they span. -/
theorem rotateU_of_orthonormal (cam : Camera ℝ) (deg : ℝ) (h : cam.orthonormal) :
    rotateU cam deg = some { cam with
      lookVector := (cam.lookVector.scale (Real.cos (radians deg))).add
        (cam.upVector.scale (Real.sin (radians deg)))
      upVector := (cam.upVector.scale (Real.cos (radians deg))).add
        (cam.lookVector.scale (-Real.sin (radians deg))) } := by
  obtain ⟨hl, hu, hlu⟩ := h
  rw [length_eq_one] at hl hu
  have hul : dot cam.upVector cam.lookVector = 0 := by rw [dot_comm, hlu]
  have hr : dot (cross cam.lookVector cam.upVector) (cross cam.lookVector cam.upVector) = 1 := by
    rw [dot_cross_cross, hl, hu, hlu]
    norm_num
  obtain ⟨R, hR, hact⟩ := rotateMat_identity_action (radians deg) _ (ne_zero_of_unit _ hr)
  rw [scale_inv_sqrt_of_unit _ hr] at hact
  have e1 : cross (cross cam.lookVector cam.upVector) cam.lookVector = cam.upVector := by
    rw [cross_cross, hl, hul]
    simp [Vec3.sub, Vec3.scale]
  have e2 : cross (cross cam.lookVector cam.upVector) cam.upVector =
      cam.lookVector.scale (-1) := by
    rw [cross_cross, hu, hlu]
    simp [Vec3.sub, Vec3.scale]
  have n1 : (R.mulVec (vec4 cam.lookVector 0)).xyz =
      (cam.lookVector.scale (Real.cos (radians deg))).add
        (cam.upVector.scale (Real.sin (radians deg))) := by
    rw [hact, rodrigues, e1, dot_cross_left]
    simp [Vec3.add, Vec3.scale]
  have n2 : (R.mulVec (vec4 cam.upVector 0)).xyz =
      (cam.upVector.scale (Real.cos (radians deg))).add
        (cam.lookVector.scale (-Real.sin (radians deg))) := by
    rw [hact, rodrigues, e2, dot_cross_right]
    simp [Vec3.add, Vec3.scale]
  have u1 : dot ((cam.lookVector.scale (Real.cos (radians deg))).add
        (cam.upVector.scale (Real.sin (radians deg))))
      ((cam.lookVector.scale (Real.cos (radians deg))).add
        (cam.upVector.scale (Real.sin (radians deg)))) = 1 := by
    rw [dot_comb, hl, hu, hlu, hul]
    nlinarith [Real.sin_sq_add_cos_sq (radians deg)]
  have u2 : dot ((cam.upVector.scale (Real.cos (radians deg))).add
        (cam.lookVector.scale (-Real.sin (radians deg))))
      ((cam.upVector.scale (Real.cos (radians deg))).add
        (cam.lookVector.scale (-Real.sin (radians deg)))) = 1 := by
    rw [dot_comb, hl, hu, hlu, hul]
    nlinarith [Real.sin_sq_add_cos_sq (radians deg)]
  simp only [rotateU, length_ne_zero_of_unit _ hl, length_ne_zero_of_unit _ hu,
    length_ne_zero_of_unit _ hr, or_self, if_false, normalize_of_unit _ hr, hR, n1, n2,
    normalize_of_unit _ u1, normalize_of_unit _ u2, Option.bind_eq_bind, Option.some_bind,
    Option.pure_def]

/-- The method `rotateU` keeps an orthonormal basis orthonormal. -/
theorem rotateU_orthonormal_result (cam : Camera ℝ) (deg : ℝ) (h : cam.orthonormal) :
    Camera.orthonormal { cam with
      lookVector := (cam.lookVector.scale (Real.cos (radians deg))).add
        (cam.upVector.scale (Real.sin (radians deg)))
      upVector := (cam.upVector.scale (Real.cos (radians deg))).add
        (cam.lookVector.scale (-Real.sin (radians deg))) } := by
  obtain ⟨hl, hu, hlu⟩ := h
  rw [length_eq_one] at hl hu
  have hul : dot cam.upVector cam.lookVector = 0 := by rw [dot_comm, hlu]
  refine ⟨?_, ?_, ?_⟩
  · rw [length_eq_one]
    show dot _ _ = 1
    rw [dot_comb, hl, hu, hlu, hul]
    nlinarith [Real.sin_sq_add_cos_sq (radians deg)]
  · rw [length_eq_one]
    show dot _ _ = 1
    rw [dot_comb, hl, hu, hlu, hul]
    nlinarith [Real.sin_sq_add_cos_sq (radians deg)]
  · show dot _ _ = 0
    rw [dot_comb, hl, hu, hlu, hul]
    ring

/-- Turning by zero degrees about the up vector changes nothing when the look
vector has unit length and the up vector is not zero. -/
theorem rotateV_zero (cam : Camera ℝ) (hl : dot cam.lookVector cam.lookVector = 1)
    (hu : cam.upVector ≠ Vec3.zero) : rotateV cam 0 = some cam := by
  obtain ⟨R, hR, hact⟩ := rotateMat_identity_action (radians 0) _ hu
  have hu0 : length cam.upVector ≠ 0 := fun e => hu ((length_eq_zero _).1 e)
  have n1 : (R.mulVec (vec4 cam.lookVector 0)).xyz = cam.lookVector := by
    rw [hact, radians_zero, rodrigues_zero]
  simp only [rotateV, length_ne_zero_of_unit _ hl, hu0, or_self, if_false, hR, n1,
    normalize_of_unit _ hl, Option.bind_eq_bind, Option.some_bind, Option.pure_def]

/-- Turning by zero degrees about the look vector changes nothing when the up
vector has unit length and the look vector is not zero. -/
theorem rotateW_zero (cam : Camera ℝ) (hl : cam.lookVector ≠ Vec3.zero)
    (hu : dot cam.upVector cam.upVector = 1) : rotateW cam 0 = some cam := by
  obtain ⟨R, hR, hact⟩ := rotateMat_identity_action (radians 0) _ hl
  have hl0 : length cam.lookVector ≠ 0 := fun e => hl ((length_eq_zero _).1 e)
  have n1 : (R.mulVec (vec4 cam.upVector 0)).xyz = cam.upVector := by
    rw [hact, radians_zero, rodrigues_zero]
  simp only [rotateW, length_ne_zero_of_unit _ hu, hl0, or_self, if_false, hR, n1,
    normalize_of_unit _ hu, Option.bind_eq_bind, Option.some_bind, Option.pure_def]

theorem cross_zero_left (v : Vec3 ℝ) : cross Vec3.zero v = Vec3.zero := by
  simp [cross, Vec3.zero]

theorem cross_swap_zero (a b : Vec3 ℝ) (h : cross a b = Vec3.zero) : cross b a = Vec3.zero := by
  simp only [cross, Vec3.zero, Vec3.mk.injEq] at h ⊢
  obtain ⟨h1, h2, h3⟩ := h
  refine ⟨?_, ?_, ?_⟩ <;> linarith

/-- A direction parallel to the unit axis is fixed by the rotation. -/
theorem rodrigues_of_parallel (n v : Vec3 ℝ) (angle : ℝ) (hn : dot n n = 1)
    (hp : cross v n = Vec3.zero) : rodrigues n angle v = v := by
  have key : (n.scale (dot v n)).sub (v.scale (dot n n)) = Vec3.zero := by
    rw [← cross_cross, hp, cross_zero_left]
  have hs := cross_swap_zero v n hp
  rw [hn] at key
  simp only [Vec3.sub, Vec3.scale, Vec3.zero, Vec3.mk.injEq, mul_one] at key
  obtain ⟨k1, k2, k3⟩ := key
  rw [rodrigues, hs, dot_comm n v]
  simp only [Vec3.add, Vec3.scale, Vec3.zero, libm_cos_real]
  ext
  · show v.x * Real.cos angle + n.x * ((1 - Real.cos angle) * dot v n) + 0 * _ = v.x
    linear_combination (1 - Real.cos angle) * k1
  · show v.y * Real.cos angle + n.y * ((1 - Real.cos angle) * dot v n) + 0 * _ = v.y
    linear_combination (1 - Real.cos angle) * k2
  · show v.z * Real.cos angle + n.z * ((1 - Real.cos angle) * dot v n) + 0 * _ = v.z
    linear_combination (1 - Real.cos angle) * k3

/-- The normalised axis stays parallel to what the axis was parallel to. -/
theorem cross_normalized_zero (v a : Vec3 ℝ) (hp : cross v a = Vec3.zero) :
    cross v (a.scale (1 / Real.sqrt (dot a a))) = Vec3.zero := by
  apply cross_swap_zero
  rw [cross_scale_left, cross_swap_zero v a hp]
  simp [Vec3.scale, Vec3.zero]

/-- With non-zero parallel look and up vectors `rotateU` returns at its guard. -/
theorem rotateU_of_parallel (cam : Camera ℝ) (deg : ℝ)
    (hp : cross cam.lookVector cam.upVector = Vec3.zero) : rotateU cam deg = some cam := by
  have h : length (cross cam.lookVector cam.upVector) = 0 := (length_eq_zero _).2 hp
  simp only [rotateU, h, if_true, ite_self]

/-- With non-zero parallel look and up vectors `rotateV` only normalises the
look vector. -/
theorem rotateV_of_parallel (cam : Camera ℝ) (deg : ℝ) (hl : cam.lookVector ≠ Vec3.zero)
    (hu : cam.upVector ≠ Vec3.zero) (hp : cross cam.lookVector cam.upVector = Vec3.zero) :
    rotateV cam deg = some { cam with
      lookVector := cam.lookVector.scale (1 / Real.sqrt (dot cam.lookVector cam.lookVector)) } := by
  obtain ⟨R, hR, hact⟩ := rotateMat_identity_action (radians deg) _ hu
  have hl0 : length cam.lookVector ≠ 0 := fun e => hl ((length_eq_zero _).1 e)
  have hu0 : length cam.upVector ≠ 0 := fun e => hu ((length_eq_zero _).1 e)
  have n1 : (R.mulVec (vec4 cam.lookVector 0)).xyz = cam.lookVector := by
    rw [hact, rodrigues_of_parallel _ _ _ (dot_normalized _ hu) (cross_normalized_zero _ _ hp)]
  simp only [rotateV, hl0, hu0, or_self, if_false, hR, n1, normalize_of_ne_zero _ hl,
    Option.bind_eq_bind, Option.some_bind, Option.pure_def]

/-- With non-zero parallel look and up vectors `rotateW` only normalises the
up vector. -/
theorem rotateW_of_parallel (cam : Camera ℝ) (deg : ℝ) (hl : cam.lookVector ≠ Vec3.zero)
    (hu : cam.upVector ≠ Vec3.zero) (hp : cross cam.lookVector cam.upVector = Vec3.zero) :
    rotateW cam deg = some { cam with
      upVector := cam.upVector.scale (1 / Real.sqrt (dot cam.upVector cam.upVector)) } := by
  obtain ⟨R, hR, hact⟩ := rotateMat_identity_action (radians deg) _ hl
  have hl0 : length cam.lookVector ≠ 0 := fun e => hl ((length_eq_zero _).1 e)
  have hu0 : length cam.upVector ≠ 0 := fun e => hu ((length_eq_zero _).1 e)
  have n1 : (R.mulVec (vec4 cam.upVector 0)).xyz = cam.upVector := by
    rw [hact, rodrigues_of_parallel _ _ _ (dot_normalized _ hl)
      (cross_normalized_zero _ _ (cross_swap_zero _ _ hp))]
  simp only [rotateW, hl0, hu0, or_self, if_false, hR, n1, normalize_of_ne_zero _ hu,
    Option.bind_eq_bind, Option.some_bind, Option.pure_def]

theorem sqrt_four : Real.sqrt 4 = 2 := by
  rw [show (4 : ℝ) = 2 ^ 2 by norm_num]
  exact Real.sqrt_sq (by norm_num)

/-- On an orthonormal basis `setRotUVW u 0 0`, called with the trackers of the
second and third axis at zero, is `rotateU` by the difference to the stored
angle followed by the update of the trackers. -/
theorem setRotUVW_u_of_orthonormal (cam : Camera ℝ) (u : ℝ) (h : cam.orthonormal)
    (hV : cam.rotV = 0) (hW : cam.rotW = 0) :
    setRotUVW cam u 0 0 = some { cam with
      lookVector := (cam.lookVector.scale (Real.cos (radians (u - cam.rotU)))).add
        (cam.upVector.scale (Real.sin (radians (u - cam.rotU))))
      upVector := (cam.upVector.scale (Real.cos (radians (u - cam.rotU)))).add
        (cam.lookVector.scale (-Real.sin (radians (u - cam.rotU))))
      rotU := u, rotV := 0, rotW := 0 } := by
  obtain ⟨pos, l, up, va, np, fp, sw, sh, swr, rU, rV, rW⟩ := cam
  simp only at hV hW
  subst hV hW
  obtain ⟨hl, hu, -⟩ := rotateU_orthonormal_result _ (u - rU) h
  rw [length_eq_one] at hl hu
  simp only [setRotUVW, rotateU_of_orthonormal _ _ h, sub_zero, Option.bind_eq_bind,
    Option.some_bind, Option.pure_def]
  rw [rotateV_zero _ hl (ne_zero_of_unit _ hu)]
  simp only [Option.some_bind]
  rw [rotateW_zero _ (ne_zero_of_unit _ hl) hu]
  simp only [Option.some_bind]

/-- Turning by zero degrees about the right axis changes nothing when the
look and up vectors have unit length. -/
theorem rotateU_zero (cam : Camera ℝ) (hl : dot cam.lookVector cam.lookVector = 1)
    (hu : dot cam.upVector cam.upVector = 1) : rotateU cam 0 = some cam := by
  by_cases hp : cross cam.lookVector cam.upVector = Vec3.zero
  · exact rotateU_of_parallel cam 0 hp
  · have hr := dot_normalized _ hp
    obtain ⟨R, hR, hact⟩ := rotateMat_identity_action (radians 0) _ (ne_zero_of_unit _ hr)
    have hp0 : length (cross cam.lookVector cam.upVector) ≠ 0 :=
      fun e => hp ((length_eq_zero _).1 e)
    have n1 : (R.mulVec (vec4 cam.lookVector 0)).xyz = cam.lookVector := by
      rw [hact, radians_zero, rodrigues_zero]
    have n2 : (R.mulVec (vec4 cam.upVector 0)).xyz = cam.upVector := by
      rw [hact, radians_zero, rodrigues_zero]
    simp only [rotateU, length_ne_zero_of_unit _ hl, length_ne_zero_of_unit _ hu, hp0, or_self,
      if_false, normalize_of_ne_zero _ hp, hR, n1, n2, normalize_of_unit _ hl,
      normalize_of_unit _ hu, Option.bind_eq_bind, Option.some_bind, Option.pure_def]

/-- The rotation about a unit axis preserves the dot product. -/
theorem dot_rodrigues (n a b : Vec3 ℝ) (angle : ℝ) (hn : dot n n = 1) :
    dot (rodrigues n angle a) (rodrigues n angle b) = dot a b := by
  have hcs := Real.cos_sq_add_sin_sq angle
  simp only [dot] at hn
  simp only [rodrigues, dot, cross, Vec3.add, Vec3.scale, libm_cos_real, libm_sin_real]
  linear_combination
    ((1 - Real.cos angle) ^ 2 * (n.x * a.x + n.y * a.y + n.z * a.z) *
        (n.x * b.x + n.y * b.y + n.z * b.z) +
      Real.sin angle ^ 2 * (a.x * b.x + a.y * b.y + a.z * b.z)) * hn +
    ((a.x * b.x + a.y * b.y + a.z * b.z) -
      (n.x * a.x + n.y * a.y + n.z * a.z) * (n.x * b.x + n.y * b.y + n.z * b.z)) * hcs

/-- The rotation about a unit axis fixes the axis. -/
theorem rodrigues_axis (n : Vec3 ℝ) (angle : ℝ) (hn : dot n n = 1) : rodrigues n angle n = n :=
  rodrigues_of_parallel n n angle hn (by simp [cross, Vec3.zero, mul_comm])

/-- With unit look and up vectors `rotateV` replaces the look vector by its
rotation about the up vector. -/
theorem rotateV_of_unit (cam : Camera ℝ) (deg : ℝ)
    (hl : dot cam.lookVector cam.lookVector = 1) (hu : dot cam.upVector cam.upVector = 1) :
    rotateV cam deg =
      some { cam with lookVector := rodrigues cam.upVector (radians deg) cam.lookVector } := by
  obtain ⟨R, hR, hact⟩ := rotateMat_identity_action (radians deg) _ (ne_zero_of_unit _ hu)
  rw [scale_inv_sqrt_of_unit _ hu] at hact
  have u1 : dot (rodrigues cam.upVector (radians deg) cam.lookVector)
      (rodrigues cam.upVector (radians deg) cam.lookVector) = 1 := by
    rw [dot_rodrigues _ _ _ _ hu, hl]
  simp only [rotateV, length_ne_zero_of_unit _ hl, length_ne_zero_of_unit _ hu, or_self,
    if_false, hR, hact, normalize_of_unit _ u1, Option.bind_eq_bind, Option.some_bind,
    Option.pure_def]

/-- With unit look and up vectors `rotateW` replaces the up vector by its
rotation about the look vector. -/
theorem rotateW_of_unit (cam : Camera ℝ) (deg : ℝ)
    (hl : dot cam.lookVector cam.lookVector = 1) (hu : dot cam.upVector cam.upVector = 1) :
    rotateW cam deg =
      some { cam with upVector := rodrigues cam.lookVector (radians deg) cam.upVector } := by
  obtain ⟨R, hR, hact⟩ := rotateMat_identity_action (radians deg) _ (ne_zero_of_unit _ hl)
  rw [scale_inv_sqrt_of_unit _ hl] at hact
  have u1 : dot (rodrigues cam.lookVector (radians deg) cam.upVector)
      (rodrigues cam.lookVector (radians deg) cam.upVector) = 1 := by
    rw [dot_rodrigues _ _ _ _ hl, hu]
  simp only [rotateW, length_ne_zero_of_unit _ hl, length_ne_zero_of_unit _ hu, or_self,
    if_false, hR, hact, normalize_of_unit _ u1, Option.bind_eq_bind, Option.some_bind,
    Option.pure_def]

end Rotation

/-! ## Matrices -/

section Matrices

theorem cofactors_mul (m : Mat4 ℝ) :
    (cofactors m).mul m = (Mat4.identity : Mat4 ℝ).scale (determinant m) := by
  obtain ⟨⟨a0, a1, a2, a3⟩, ⟨b0, b1, b2, b3⟩, ⟨c0, c1, c2, c3⟩, ⟨d0, d1, d2, d3⟩⟩ := m
  simp only [determinant, cofactors, Mat4.mul, Mat4.scale, Mat4.identity, Vec4.add, Vec4.scale,
    Mat4.mk.injEq, Vec4.mk.injEq]
  refine ⟨⟨?_, ?_, ?_, ?_⟩, ⟨?_, ?_, ?_, ?_⟩, ⟨?_, ?_, ?_, ?_⟩, ⟨?_, ?_, ?_, ?_⟩⟩ <;> ring

theorem mul_cofactors (m : Mat4 ℝ) :
    m.mul (cofactors m) = (Mat4.identity : Mat4 ℝ).scale (determinant m) := by
  obtain ⟨⟨a0, a1, a2, a3⟩, ⟨b0, b1, b2, b3⟩, ⟨c0, c1, c2, c3⟩, ⟨d0, d1, d2, d3⟩⟩ := m
  simp only [determinant, cofactors, Mat4.mul, Mat4.scale, Mat4.identity, Vec4.add, Vec4.scale,
    Mat4.mk.injEq, Vec4.mk.injEq]
  refine ⟨⟨?_, ?_, ?_, ?_⟩, ⟨?_, ?_, ?_, ?_⟩, ⟨?_, ?_, ?_, ?_⟩, ⟨?_, ?_, ?_, ?_⟩⟩ <;> ring

theorem scale_mul (a b : Mat4 ℝ) (k : ℝ) : (a.scale k).mul b = (a.mul b).scale k := by
  simp only [Mat4.mul, Mat4.scale, Vec4.add, Vec4.scale, Mat4.mk.injEq, Vec4.mk.injEq]
  refine ⟨⟨?_, ?_, ?_, ?_⟩, ⟨?_, ?_, ?_, ?_⟩, ⟨?_, ?_, ?_, ?_⟩, ⟨?_, ?_, ?_, ?_⟩⟩ <;> ring

theorem mul_scale (a b : Mat4 ℝ) (k : ℝ) : a.mul (b.scale k) = (a.mul b).scale k := by
  simp only [Mat4.mul, Mat4.scale, Vec4.add, Vec4.scale, Mat4.mk.injEq, Vec4.mk.injEq]
  refine ⟨⟨?_, ?_, ?_, ?_⟩, ⟨?_, ?_, ?_, ?_⟩, ⟨?_, ?_, ?_, ?_⟩, ⟨?_, ?_, ?_, ?_⟩⟩ <;> ring

theorem identity_scale_scale (d : ℝ) (hd : d ≠ 0) :
    ((Mat4.identity : Mat4 ℝ).scale d).scale (1 / d) = Mat4.identity := by
  simp [Mat4.scale, Mat4.identity, Vec4.scale, hd]

/-- The function `glm::inverse` returns a two-sided inverse whenever the
determinant is not zero. -/
theorem inverse_spec (m : Mat4 ℝ) (hd : determinant m ≠ 0) :
    ∃ inv, inverse m = some inv ∧ inv.mul m = Mat4.identity ∧ m.mul inv = Mat4.identity := by
  simp only [inverse, hd, if_false]
  refine ⟨_, rfl, ?_, ?_⟩
  · rw [scale_mul, cofactors_mul, identity_scale_scale _ hd]
  · rw [mul_scale, mul_cofactors, identity_scale_scale _ hd]

theorem add_sub_cancel_vec (a b : Vec3 ℝ) : (a.add b).sub a = b := by
  simp [Vec3.add, Vec3.sub]

/-- The determinant of a matrix of the shape `glm::lookAt` builds. -/
theorem determinant_lookAt_shape (s f t : Vec3 ℝ) :
    determinant
      (⟨⟨s.x, (cross s f).x, -f.x, 0⟩, ⟨s.y, (cross s f).y, -f.y, 0⟩,
        ⟨s.z, (cross s f).z, -f.z, 0⟩, ⟨t.x, t.y, t.z, 1⟩⟩ : Mat4 ℝ) =
      dot s s * dot f f - dot s f * dot s f := by
  simp only [determinant, cofactors, cross, dot]
  ring

/-- The function `glm::lookAt` succeeds when the viewing direction is not
parallel to `up`, and the matrix it returns has determinant one. -/
theorem lookAt_spec (eye center up : Vec3 ℝ) (h : cross (center.sub eye) up ≠ Vec3.zero) :
    ∃ mv, lookAt eye center up = some mv ∧ determinant mv = 1 := by
  have hd : center.sub eye ≠ Vec3.zero := by
    intro e
    exact h (by rw [e]; simp [cross, Vec3.zero])
  have hpos : 0 < dot (center.sub eye) (center.sub eye) :=
    lt_of_le_of_ne (dot_self_nonneg _) (fun e => hd ((dot_self_eq_zero _).1 e.symm))
  have hs : 0 < Real.sqrt (dot (center.sub eye) (center.sub eye)) := Real.sqrt_pos.2 hpos
  set f := (center.sub eye).scale (1 / Real.sqrt (dot (center.sub eye) (center.sub eye))) with hf
  have hff : dot f f = 1 := dot_normalized _ hd
  have hc : cross f up ≠ Vec3.zero := by
    rw [hf, cross_scale_left]
    intro e
    exact h ((scale_zero_iff _ _ (one_div_ne_zero hs.ne')).1 e)
  set s := (cross f up).scale (1 / Real.sqrt (dot (cross f up) (cross f up))) with hsdef
  have hss : dot s s = 1 := dot_normalized _ hc
  have hsf : dot s f = 0 := by
    have e : dot s f = 1 / Real.sqrt (dot (cross f up) (cross f up)) * 1 * dot (cross f up) f := by
      rw [hsdef, ← dot_scale_scale, scale_one]
    rw [e, dot_cross_left, mul_zero]
  simp only [lookAt, normalize_of_ne_zero _ hd, ← hf, normalize_of_ne_zero _ hc, ← hsdef,
    Option.bind_eq_bind, Option.some_bind, Option.pure_def]
  refine ⟨_, rfl, ?_⟩
  have e := determinant_lookAt_shape s f
    ⟨-(dot s eye), -(dot (cross s f) eye), dot f eye⟩
  rw [e, hss, hff, hsf]
  norm_num

theorem radians_degrees (a : ℝ) : radians (degrees a) = a := by
  simp only [radians, degrees, libm_pi_real]
  field_simp

theorem degrees_radians (a : ℝ) : degrees (radians a) = a := by
  simp only [radians, degrees, libm_pi_real]
  field_simp

theorem radians_180 : radians (180 : ℝ) = Real.pi := by
  simp only [radians, libm_pi_real]
  field_simp

/-- With a stored view angle strictly between 0 and π, ordered positive planes
and a positive screen size, none of the fallbacks of `getScaleMatrix` fires. -/
theorem getScaleMatrix_of_valid (cam : Camera ℝ) (hv0 : 0 < cam.viewAngle)
    (hv1 : cam.viewAngle < Real.pi) (hn : 0 < cam.nearPlane) (hnf : cam.nearPlane < cam.farPlane)
    (hw : 0 < cam.screenWidth) (hh : 0 < cam.screenHeight) :
    getScaleMatrix cam =
      ⟨⟨1 / (Real.tan (cam.viewAngle / 2) * cam.farPlane *
          ((cam.screenWidth : ℝ) / (cam.screenHeight : ℝ))), 0, 0, 0⟩,
        ⟨0, 1 / (Real.tan (cam.viewAngle / 2) * cam.farPlane), 0, 0⟩,
        ⟨0, 0, 1 / cam.farPlane, 0⟩, ⟨0, 0, 0, 1⟩⟩ := by
  have c1 : ¬ (cam.screenWidth ≤ 0 ∨ cam.screenHeight ≤ 0) := by
    rw [not_or, not_le, not_le]
    exact ⟨hw, hh⟩
  have c2 : ¬ (cam.viewAngle ≤ 0 ∨ cam.viewAngle ≥ Real.pi) := by
    rw [not_or, not_le, ge_iff_le, not_le]
    exact ⟨hv0, hv1⟩
  have c3 : ¬ (cam.nearPlane ≤ 0 ∨ cam.nearPlane ≥ cam.farPlane) := by
    rw [not_or, not_le, ge_iff_le, not_le]
    exact ⟨hn, hnf⟩
  simp only [getScaleMatrix, getViewAngle, getNearPlane, getFarPlane, getScreenWidth,
    getScreenHeight, radians_degrees, radians_180, if_neg c1, if_neg c2, if_neg c3,
    libm_tan_real]

theorem tan_thirty_neg : Real.tan 30 < 0 := by
  have h : Real.tan (30 - (10 : ℕ) * Real.pi) = Real.tan 30 := Real.tan_sub_nat_mul_pi 30 10
  rw [← h]
  apply Real.tan_neg_of_neg_of_pi_div_two_lt
  · have := Real.pi_gt_three
    push_cast
    linarith
  · have := Real.pi_lt_d2
    push_cast
    norm_num at this
    linarith

theorem tan_pi_div_six_pos : 0 < Real.tan (Real.pi / 6) := by
  apply Real.tan_pos_of_pos_of_lt_pi_div_two
  · have := Real.pi_pos
    linarith
  · have := Real.pi_pos
    linarith

theorem sampleCamera_viewAngle : (sampleCamera : Camera ℝ).viewAngle = Real.pi / 3 := by
  simp only [sampleCamera, radians, libm_pi_real]
  ring

/-- The scale matrix of the sample camera. -/
theorem getScaleMatrix_sampleCamera :
    getScaleMatrix (sampleCamera : Camera ℝ) =
      ⟨⟨1 / (Real.tan (Real.pi / 6) * 20 * (((200 : Int) : ℝ) / ((200 : Int) : ℝ))), 0, 0, 0⟩,
        ⟨0, 1 / (Real.tan (Real.pi / 6) * 20), 0, 0⟩, ⟨0, 0, 1 / 20, 0⟩, ⟨0, 0, 0, 1⟩⟩ := by
  have hv : (sampleCamera : Camera ℝ).viewAngle / 2 = Real.pi / 6 := by
    rw [sampleCamera_viewAngle]
    ring
  have h := getScaleMatrix_of_valid (sampleCamera : Camera ℝ)
    (by rw [sampleCamera_viewAngle]; have := Real.pi_pos; linarith)
    (by rw [sampleCamera_viewAngle]; have := Real.pi_pos; linarith)
    (by norm_num [sampleCamera]) (by norm_num [sampleCamera]) (by norm_num [sampleCamera])
    (by norm_num [sampleCamera])
  rw [h, hv]
  rfl

/-- The inverse scale matrix of the sample camera: the tangent is taken of
half the angle in degrees. -/
theorem getInverseScaleMatrix_sampleCamera :
    getInverseScaleMatrix (sampleCamera : Camera ℝ) =
      ⟨⟨Real.tan 30 * 20 * (((200 : Int) : ℝ) / ((200 : Int) : ℝ)), 0, 0, 0⟩,
        ⟨0, Real.tan 30 * 20, 0, 0⟩, ⟨0, 0, 20, 0⟩, ⟨0, 0, 0, 1⟩⟩ := by
  have hv : getViewAngle (sampleCamera : Camera ℝ) / 2 = 30 := by
    simp only [getViewAngle, sampleCamera, degrees_radians]
    norm_num
  simp only [getInverseScaleMatrix, hv, libm_tan_real]
  rfl

/-- Entry `[c][r]` of the glm product `a * b` is the sum over `k` of
`a[k][r] * b[c][k]`: row `r` of `a` against column `c` of `b`. -/
theorem mul_get (a b : Mat4 ℝ) (c r : Fin 4) :
    (a.mul b).get c r = ∑ k : Fin 4, a.get k r * b.get c k := by
  rw [Fin.sum_univ_four]
  fin_cases c <;> fin_cases r <;> rfl

/-- The bottom row of `glm::rotate(mat4(1), angle, a)` is `(0, 0, 0, 1)`. -/
theorem rotateMat_identity_bottom (angle : ℝ) (a : Vec3 ℝ) (R : Mat4 ℝ)
    (h : rotateMat Mat4.identity angle a = some R) :
    R.c0.w = 0 ∧ R.c1.w = 0 ∧ R.c2.w = 0 ∧ R.c3.w = 1 := by
  unfold rotateMat at h
  cases hn : normalize a with
  | none =>
    rw [hn] at h
    simp at h
  | some n =>
    rw [hn] at h
    simp only [Option.bind_eq_bind, Option.some_bind, Option.pure_def, Option.some.injEq] at h
    subst h
    simp [Mat4.identity, Vec4.add, Vec4.scale]

/-- The matrix `translate(p) * R * translate(-p)` acts on a direction (fourth
component zero) as `R` does, when the bottom row of `R` is `(0, 0, 0, 1)`. -/
theorem pivot_direction (p v : Vec3 ℝ) (R : Mat4 ℝ) (h0 : R.c0.w = 0) (h1 : R.c1.w = 0)
    (h2 : R.c2.w = 0) :
    ((((translateMat Mat4.identity p).mul R).mul (translateMat Mat4.identity p.neg)).mulVec
      (vec4 v 0)).xyz = (R.mulVec (vec4 v 0)).xyz := by
  simp only [translateMat, Mat4.mul, Mat4.mulVec, Mat4.identity, vec4, Vec4.xyz, Vec4.add,
    Vec4.scale, Vec3.neg, h0, h1, h2, Vec3.mk.injEq]
  refine ⟨?_, ?_, ?_⟩ <;> ring

/-- The method `rotate` written without the pivot point. -/
theorem rotate_eq (cam : Camera ℝ) (p axis : Vec3 ℝ) (deg : ℝ) :
    rotate cam p axis deg =
      (rotateMat Mat4.identity (radians deg) axis).bind fun R =>
        (normalize (R.mulVec (vec4 cam.lookVector 0)).xyz).bind fun l =>
          (normalize (R.mulVec (vec4 cam.upVector 0)).xyz).bind fun u =>
            some { cam with lookVector := l, upVector := u } := by
  simp only [rotate, Option.bind_eq_bind, Option.pure_def]
  cases hR : rotateMat Mat4.identity (radians deg) axis with
  | none => rfl
  | some R =>
    obtain ⟨h0, h1, h2, -⟩ := rotateMat_identity_bottom _ _ _ hR
    simp only [Option.some_bind, pivot_direction p _ R h0 h1 h2]

theorem mul_assoc_mat (a b c : Mat4 ℝ) : (a.mul b).mul c = a.mul (b.mul c) := by
  simp only [Mat4.mul, Vec4.add, Vec4.scale, Mat4.mk.injEq, Vec4.mk.injEq]
  refine ⟨⟨?_, ?_, ?_, ?_⟩, ⟨?_, ?_, ?_, ?_⟩, ⟨?_, ?_, ?_, ?_⟩, ⟨?_, ?_, ?_, ?_⟩⟩ <;> ring

theorem mul_identity (a : Mat4 ℝ) : a.mul Mat4.identity = a := by
  simp [Mat4.mul, Mat4.identity, Vec4.add, Vec4.scale]

theorem identity_mul (a : Mat4 ℝ) : (Mat4.identity : Mat4 ℝ).mul a = a := by
  simp [Mat4.mul, Mat4.identity, Vec4.add, Vec4.scale]

/-- A left inverse equals any right inverse. -/
theorem inverse_unique (m inv b : Mat4 ℝ) (h1 : inv.mul m = Mat4.identity)
    (h2 : m.mul b = Mat4.identity) : inv = b := by
  calc inv = inv.mul Mat4.identity := (mul_identity inv).symm
    _ = inv.mul (m.mul b) := by rw [h2]
    _ = (inv.mul m).mul b := (mul_assoc_mat inv m b).symm
    _ = (Mat4.identity : Mat4 ℝ).mul b := by rw [h1]
    _ = b := identity_mul b

/-- A matrix of the shape `glm::lookAt` builds from an orthonormal triple has
the transposed rotation, with the eye as translation, as right inverse. -/
theorem lookAt_shape_mul_transpose (s u f e : Vec3 ℝ) (hss : dot s s = 1) (huu : dot u u = 1)
    (hff : dot f f = 1) (hsu : dot s u = 0) (hsf : dot s f = 0) (huf : dot u f = 0) :
    (⟨⟨s.x, u.x, -f.x, 0⟩, ⟨s.y, u.y, -f.y, 0⟩, ⟨s.z, u.z, -f.z, 0⟩,
        ⟨-(dot s e), -(dot u e), dot f e, 1⟩⟩ : Mat4 ℝ).mul
      ⟨⟨s.x, s.y, s.z, 0⟩, ⟨u.x, u.y, u.z, 0⟩, ⟨-f.x, -f.y, -f.z, 0⟩, ⟨e.x, e.y, e.z, 1⟩⟩ =
      Mat4.identity := by
  simp only [dot] at hss huu hff hsu hsf huf
  simp only [Mat4.mul, Mat4.identity, Vec4.add, Vec4.scale, dot, Mat4.mk.injEq, Vec4.mk.injEq]
  refine ⟨⟨?_, ?_, ?_, ?_⟩, ⟨?_, ?_, ?_, ?_⟩, ⟨?_, ?_, ?_, ?_⟩, ⟨?_, ?_, ?_, ?_⟩⟩ <;>
    linarith

/-- The model-view matrix of a camera with an orthonormal basis: its rows are
`right = cross(look, up)`, `up` and `-look`. -/
theorem getModelViewMatrix_of_orthonormal (cam : Camera ℝ) (h : cam.orthonormal) :
    getModelViewMatrix cam =
      some ⟨⟨(cross cam.lookVector cam.upVector).x, cam.upVector.x, -cam.lookVector.x, 0⟩,
        ⟨(cross cam.lookVector cam.upVector).y, cam.upVector.y, -cam.lookVector.y, 0⟩,
        ⟨(cross cam.lookVector cam.upVector).z, cam.upVector.z, -cam.lookVector.z, 0⟩,
        ⟨-(dot (cross cam.lookVector cam.upVector) cam.position),
          -(dot cam.upVector cam.position), dot cam.lookVector cam.position, 1⟩⟩ := by
  obtain ⟨hl, hu, hlu⟩ := h
  rw [length_eq_one] at hl hu
  have hul : dot cam.upVector cam.lookVector = 0 := by rw [dot_comm, hlu]
  have hr : dot (cross cam.lookVector cam.upVector) (cross cam.lookVector cam.upVector) = 1 := by
    rw [dot_cross_cross, hl, hu, hlu]
    norm_num
  have e1 : cross (cross cam.lookVector cam.upVector) cam.lookVector = cam.upVector := by
    rw [cross_cross, hl, hul]
    simp [Vec3.sub, Vec3.scale]
  simp only [getModelViewMatrix, getEyePoint, getLookVector, getUpVector, lookAt,
    add_sub_cancel_vec, normalize_of_unit _ hl, normalize_of_unit _ hr, e1, Option.bind_eq_bind,
    Option.some_bind, Option.pure_def]

/-- The inverse model-view matrix of a camera with an orthonormal basis: its
columns are `right`, `up`, `-look` and the eye point. -/
theorem getInverseModelViewMatrix_of_orthonormal (cam : Camera ℝ) (h : cam.orthonormal) :
    getInverseModelViewMatrix cam =
      some ⟨⟨(cross cam.lookVector cam.upVector).x, (cross cam.lookVector cam.upVector).y,
          (cross cam.lookVector cam.upVector).z, 0⟩,
        ⟨cam.upVector.x, cam.upVector.y, cam.upVector.z, 0⟩,
        ⟨-cam.lookVector.x, -cam.lookVector.y, -cam.lookVector.z, 0⟩,
        ⟨cam.position.x, cam.position.y, cam.position.z, 1⟩⟩ := by
  have hmv := getModelViewMatrix_of_orthonormal cam h
  obtain ⟨hl, hu, hlu⟩ := h
  rw [length_eq_one] at hl hu
  have hr : dot (cross cam.lookVector cam.upVector) (cross cam.lookVector cam.upVector) = 1 := by
    rw [dot_cross_cross, hl, hu, hlu]
    norm_num
  have hright := lookAt_shape_mul_transpose (cross cam.lookVector cam.upVector) cam.upVector
    cam.lookVector cam.position hr hu hl (dot_cross_right _ _) (dot_cross_left _ _)
    (by rw [dot_comm, hlu])
  have hdet : determinant
      (⟨⟨(cross cam.lookVector cam.upVector).x, cam.upVector.x, -cam.lookVector.x, 0⟩,
        ⟨(cross cam.lookVector cam.upVector).y, cam.upVector.y, -cam.lookVector.y, 0⟩,
        ⟨(cross cam.lookVector cam.upVector).z, cam.upVector.z, -cam.lookVector.z, 0⟩,
        ⟨-(dot (cross cam.lookVector cam.upVector) cam.position),
          -(dot cam.upVector cam.position), dot cam.lookVector cam.position, 1⟩⟩ : Mat4 ℝ) ≠
      0 := by
    have e : determinant
        (⟨⟨(cross cam.lookVector cam.upVector).x, cam.upVector.x, -cam.lookVector.x, 0⟩,
          ⟨(cross cam.lookVector cam.upVector).y, cam.upVector.y, -cam.lookVector.y, 0⟩,
          ⟨(cross cam.lookVector cam.upVector).z, cam.upVector.z, -cam.lookVector.z, 0⟩,
          ⟨-(dot (cross cam.lookVector cam.upVector) cam.position),
            -(dot cam.upVector cam.position), dot cam.lookVector cam.position, 1⟩⟩ : Mat4 ℝ) =
        dot (cross cam.lookVector cam.upVector) (cross cam.lookVector cam.upVector) := by
      simp only [determinant, cofactors, cross, dot]
      ring
    rw [e, hr]
    exact one_ne_zero
  obtain ⟨inv, hinv, h1, -⟩ := inverse_spec _ hdet
  have hEq := inverse_unique _ inv _ h1 hright
  have hmv1 : lookAt (getEyePoint cam) ((getEyePoint cam).add (getLookVector cam))
      (getUpVector cam) = _ := hmv
  simp only [getInverseModelViewMatrix, hmv1, Option.bind_eq_bind, Option.some_bind, hinv, hEq]

end Matrices

/-! ## Claims -/

section Claims

/-- C1: for every eye, target and up with eye ≠ target and up not parallel to
target − eye, `orientLookAt` succeeds and leaves the camera with position = eye,
a look vector of length 1, an up vector of length 1, and the two orthogonal. -/
theorem orientLookAt_orthonormal (cam : Camera ℝ) (eye target up : Vec3 ℝ)
    (_ : eye ≠ target) (hpar : cross (target.sub eye) up ≠ Vec3.zero) :
    ∃ cam1, orientLookAt cam eye target up = some cam1 ∧ cam1.position = eye ∧
      length cam1.lookVector = 1 ∧ length cam1.upVector = 1 ∧
      dot cam1.lookVector cam1.upVector = 0 := by
  obtain ⟨cam1, h1, h2, h3, h4, h5, -⟩ := orientLookVec_spec cam eye (target.sub eye) up hpar
  exact ⟨cam1, h1, h2, (length_eq_one _).2 h3, (length_eq_one _).2 h4, h5⟩

/-- C2: on an orthonormal camera with zeroed trackers, `setRotUVW(a,0,0)`
followed by `setRotUVW(b,0,0)` succeeds and ends with the look and up vectors
that a single `rotateU(b)` gives from the original state, with the trackers at
`(b,0,0)`. -/
theorem setRotUVW_cumulative (cam : Camera ℝ) (a b : ℝ) (h : cam.orthonormal)
    (hU : cam.rotU = 0) (hV : cam.rotV = 0) (hW : cam.rotW = 0) :
    ∃ cam1 cam2 cam3, setRotUVW cam a 0 0 = some cam1 ∧ setRotUVW cam1 b 0 0 = some cam2 ∧
      rotateU cam b = some cam3 ∧ cam2.lookVector = cam3.lookVector ∧
      cam2.upVector = cam3.upVector ∧ cam2.rotU = b ∧ cam2.rotV = 0 ∧ cam2.rotW = 0 := by
  have h1 : Camera.orthonormal { cam with
      lookVector := (cam.lookVector.scale (Real.cos (radians (a - cam.rotU)))).add
        (cam.upVector.scale (Real.sin (radians (a - cam.rotU))))
      upVector := (cam.upVector.scale (Real.cos (radians (a - cam.rotU)))).add
        (cam.lookVector.scale (-Real.sin (radians (a - cam.rotU))))
      rotU := a, rotV := 0, rotW := 0 } := rotateU_orthonormal_result cam (a - cam.rotU) h
  refine ⟨_, _, _, setRotUVW_u_of_orthonormal cam a h hV hW,
    setRotUVW_u_of_orthonormal _ b h1 rfl rfl, rotateU_of_orthonormal cam b h, ?_, ?_, rfl, rfl,
    rfl⟩
  · have e : radians b = radians (b - a) + radians a := by rw [← radians_add, sub_add_cancel]
    simp only [hU, sub_zero, e, Real.cos_add, Real.sin_add, Vec3.add, Vec3.scale, Vec3.mk.injEq]
    refine ⟨?_, ?_, ?_⟩ <;> ring
  · have e : radians b = radians (b - a) + radians a := by rw [← radians_add, sub_add_cancel]
    simp only [hU, sub_zero, e, Real.cos_add, Real.sin_add, Vec3.add, Vec3.scale, Vec3.mk.injEq]
    refine ⟨?_, ?_, ?_⟩ <;> ring

/-- Witness of C1 at eye `(0,0,2)`, target the origin and up `(0,1,0)`. -/
theorem orientLookAt_orthonormal_witness :
    (⟨0, 0, 2⟩ : Vec3 ℝ) ≠ ⟨0, 0, 0⟩ ∧
    cross ((⟨0, 0, 0⟩ : Vec3 ℝ).sub ⟨0, 0, 2⟩) ⟨0, 1, 0⟩ ≠ Vec3.zero ∧
    ∃ cam1, orientLookAt (sampleCamera : Camera ℝ) ⟨0, 0, 2⟩ ⟨0, 0, 0⟩ ⟨0, 1, 0⟩ = some cam1 ∧
      cam1.position = ⟨0, 0, 2⟩ ∧ length cam1.lookVector = 1 ∧ length cam1.upVector = 1 ∧
      dot cam1.lookVector cam1.upVector = 0 :=
  ⟨by simp, by simp [cross, Vec3.sub, Vec3.zero],
    orientLookAt_orthonormal sampleCamera ⟨0, 0, 2⟩ ⟨0, 0, 0⟩ ⟨0, 1, 0⟩ (by simp)
      (by simp [cross, Vec3.sub, Vec3.zero])⟩

/-- Witness of C2 at the sample camera with `a = 10` and `b = 20`. -/
theorem setRotUVW_cumulative_witness :
    (sampleCamera : Camera ℝ).orthonormal ∧
    ∃ cam1 cam2 cam3, setRotUVW (sampleCamera : Camera ℝ) 10 0 0 = some cam1 ∧
      setRotUVW cam1 20 0 0 = some cam2 ∧ rotateU (sampleCamera : Camera ℝ) 20 = some cam3 ∧
      cam2.lookVector = cam3.lookVector ∧ cam2.upVector = cam3.upVector ∧ cam2.rotU = 20 ∧
      cam2.rotV = 0 ∧ cam2.rotW = 0 :=
  ⟨by simp [Camera.orthonormal, sampleCamera, length, dot],
    setRotUVW_cumulative sampleCamera 10 20
      (by simp [Camera.orthonormal, sampleCamera, length, dot]) rfl rfl rfl⟩

/-- C3: for every orientation with a non-zero look vector and an up vector not
parallel to it, both view matrices exist, and the inverse model-view matrix
times the model-view matrix, in either order, is the identity matrix. -/
theorem modelView_inverse_identity (cam : Camera ℝ) (_ : cam.lookVector ≠ Vec3.zero)
    (hpar : cross cam.lookVector cam.upVector ≠ Vec3.zero) :
    ∃ mv inv, getModelViewMatrix cam = some mv ∧ getInverseModelViewMatrix cam = some inv ∧
      inv.mul mv = Mat4.identity ∧ mv.mul inv = Mat4.identity := by
  have h : cross ((cam.position.add cam.lookVector).sub cam.position) cam.upVector ≠
      Vec3.zero := by
    rw [add_sub_cancel_vec]
    exact hpar
  obtain ⟨mv, hmv, hdet⟩ := lookAt_spec cam.position (cam.position.add cam.lookVector)
    cam.upVector h
  obtain ⟨inv, hinv, h1, h2⟩ := inverse_spec mv (by rw [hdet]; exact one_ne_zero)
  refine ⟨mv, inv, hmv, ?_, h1, h2⟩
  simp only [getInverseModelViewMatrix, getEyePoint, getLookVector, getUpVector, hmv,
    Option.bind_eq_bind, Option.some_bind, hinv]

/-- Witness of C3 at the sample camera. -/
theorem modelView_inverse_identity_witness :
    (sampleCamera : Camera ℝ).lookVector ≠ Vec3.zero ∧
    cross (sampleCamera : Camera ℝ).lookVector (sampleCamera : Camera ℝ).upVector ≠ Vec3.zero ∧
    ∃ mv inv, getModelViewMatrix (sampleCamera : Camera ℝ) = some mv ∧
      getInverseModelViewMatrix (sampleCamera : Camera ℝ) = some inv ∧
      inv.mul mv = Mat4.identity ∧ mv.mul inv = Mat4.identity :=
  ⟨by simp [sampleCamera, Vec3.zero], by simp [sampleCamera, cross, Vec3.zero],
    modelView_inverse_identity sampleCamera (by simp [sampleCamera, Vec3.zero])
      (by simp [sampleCamera, cross, Vec3.zero])⟩

/-- C4 (evaluation at the sample camera, whose parameters are all valid): the
product of `getInverseScaleMatrix()` and `getScaleMatrix()` is not the identity
matrix, in either order; entry `[1][1]` of the product is
`tan(30) / tan(π/6)`, which is negative. -/
theorem inverseScale_not_inverse_at_sample :
    (getInverseScaleMatrix (sampleCamera : Camera ℝ)).mul (getScaleMatrix sampleCamera) ≠
      Mat4.identity ∧
    (getScaleMatrix (sampleCamera : Camera ℝ)).mul (getInverseScaleMatrix sampleCamera) ≠
      Mat4.identity := by
  have hneg : Real.tan 30 * 20 * (1 / (Real.tan (Real.pi / 6) * 20)) < 0 := by
    have h1 := tan_thirty_neg
    have h2 := tan_pi_div_six_pos
    have h3 : 0 < 1 / (Real.tan (Real.pi / 6) * 20) := by positivity
    nlinarith
  rw [getScaleMatrix_sampleCamera, getInverseScaleMatrix_sampleCamera]
  constructor
  · intro e
    have e1 := congrArg (fun m => m.c1.y) e
    simp only [Mat4.mul, Mat4.identity, Vec4.add, Vec4.scale] at e1
    linarith
  · intro e
    have e1 := congrArg (fun m => m.c1.y) e
    simp only [Mat4.mul, Mat4.identity, Vec4.add, Vec4.scale] at e1
    linarith

/-- C5 (as stated, refuted): the sample camera satisfies
`0 < nearPlane < farPlane`, and `setNearPlane(50)` leaves it with
`nearPlane = 50 > farPlane = 20`; a camera with planes 30 and 40 satisfies it,
and `setFarPlane(10)` leaves it with `farPlane = 20 < nearPlane = 30`. -/
theorem setters_break_plane_order :
    ((0 : ℝ) < (sampleCamera : Camera ℝ).nearPlane ∧
      (sampleCamera : Camera ℝ).nearPlane < (sampleCamera : Camera ℝ).farPlane ∧
      ¬ ((setNearPlane (sampleCamera : Camera ℝ) 50).nearPlane <
        (setNearPlane (sampleCamera : Camera ℝ) 50).farPlane)) ∧
    ((0 : ℝ) < ({ (sampleCamera : Camera ℝ) with nearPlane := 30, farPlane := 40 }).nearPlane ∧
      ({ (sampleCamera : Camera ℝ) with nearPlane := 30, farPlane := 40 }).nearPlane <
        ({ (sampleCamera : Camera ℝ) with nearPlane := 30, farPlane := 40 }).farPlane ∧
      ¬ ((setFarPlane { (sampleCamera : Camera ℝ) with nearPlane := 30, farPlane := 40 }
          10).nearPlane <
        (setFarPlane { (sampleCamera : Camera ℝ) with nearPlane := 30, farPlane := 40 }
          10).farPlane)) := by
  norm_num [sampleCamera, setNearPlane, setFarPlane]

/-- C5 (amended): from a state with `0 < nearPlane < farPlane`, `setNearPlane(n)`
keeps `nearPlane` positive and `farPlane` unchanged, and the order
`nearPlane < farPlane` holds afterwards exactly when the value it stores (`n`, or
`0.01` for `n ≤ 0`) is below `farPlane`; `setFarPlane(f)` keeps `nearPlane`
unchanged, and the order holds afterwards exactly when `f > nearPlane` or
`nearPlane < 20`. -/
theorem setters_plane_order (cam : Camera ℝ) (n f : ℝ)
    (h : 0 < cam.nearPlane ∧ cam.nearPlane < cam.farPlane) :
    (0 < (setNearPlane cam n).nearPlane ∧ (setNearPlane cam n).farPlane = cam.farPlane ∧
      ((setNearPlane cam n).nearPlane < (setNearPlane cam n).farPlane ↔
        (if n ≤ 0 then 1 / 100 else n) < cam.farPlane)) ∧
    (0 < (setFarPlane cam f).nearPlane ∧ (setFarPlane cam f).nearPlane = cam.nearPlane ∧
      ((setFarPlane cam f).nearPlane < (setFarPlane cam f).farPlane ↔
        (cam.nearPlane < f ∨ cam.nearPlane < 20))) := by
  obtain ⟨h0, -⟩ := h
  refine ⟨?_, ?_⟩
  · by_cases hn : n ≤ 0
    · have e : setNearPlane cam n = { cam with nearPlane := 1 / 100 } := by
        simp only [setNearPlane, if_pos hn]
      rw [e, if_pos hn]
      exact ⟨by norm_num, rfl, Iff.rfl⟩
    · have e : setNearPlane cam n = { cam with nearPlane := n } := by
        simp only [setNearPlane, if_neg hn]
      rw [e, if_neg hn]
      exact ⟨not_le.1 hn, rfl, Iff.rfl⟩
  · by_cases hf : f ≤ cam.nearPlane
    · have e : setFarPlane cam f = { cam with farPlane := 20 } := by
        simp only [setFarPlane, if_pos hf]
      rw [e]
      refine ⟨h0, rfl, ?_⟩
      constructor
      · intro e
        exact Or.inr e
      · rintro (e | e)
        · exact absurd e (not_lt.2 hf)
        · exact e
    · have e : setFarPlane cam f = { cam with farPlane := f } := by
        simp only [setFarPlane, if_neg hf]
      rw [e]
      refine ⟨h0, rfl, ?_⟩
      constructor
      · intro e
        exact Or.inl e
      · intro _
        exact not_le.1 hf

/-- Witness of the amended C5 at the sample camera with `n = 5` and `f = 30`. -/
theorem setters_plane_order_witness :
    ((0 : ℝ) < (sampleCamera : Camera ℝ).nearPlane ∧
      (sampleCamera : Camera ℝ).nearPlane < (sampleCamera : Camera ℝ).farPlane) ∧
    (0 < (setNearPlane (sampleCamera : Camera ℝ) 5).nearPlane ∧
      (setNearPlane (sampleCamera : Camera ℝ) 5).farPlane = (sampleCamera : Camera ℝ).farPlane ∧
      ((setNearPlane (sampleCamera : Camera ℝ) 5).nearPlane <
          (setNearPlane (sampleCamera : Camera ℝ) 5).farPlane ↔
        (if (5 : ℝ) ≤ 0 then 1 / 100 else 5) < (sampleCamera : Camera ℝ).farPlane)) ∧
    (0 < (setFarPlane (sampleCamera : Camera ℝ) 30).nearPlane ∧
      (setFarPlane (sampleCamera : Camera ℝ) 30).nearPlane =
        (sampleCamera : Camera ℝ).nearPlane ∧
      ((setFarPlane (sampleCamera : Camera ℝ) 30).nearPlane <
          (setFarPlane (sampleCamera : Camera ℝ) 30).farPlane ↔
        ((sampleCamera : Camera ℝ).nearPlane < 30 ∨ (sampleCamera : Camera ℝ).nearPlane < 20))) :=
  ⟨by norm_num [sampleCamera],
    setters_plane_order sampleCamera 5 30 (by norm_num [sampleCamera])⟩

/-- C6 (evaluation at the state `setNearPlane(50)` leaves the sample camera in,
`nearPlane = 50`, `farPlane = 20`): the near/far relationship is invalid, and
`getUnhingeMatrix()` is built from `c = -(50/20)`, not from the fallback
`c = -(0.1/100)`: entry `[2][2]` is `2/3`, not `-(1/(c+1)) = -1000/999`, and
entry `[3][2]` is `5/3`, not `c/(c+1) = -1/999`. -/
theorem getUnhingeMatrix_ignores_fallback :
    ¬ (0 < (setNearPlane (sampleCamera : Camera ℝ) 50).nearPlane ∧
      (setNearPlane (sampleCamera : Camera ℝ) 50).nearPlane <
        (setNearPlane (sampleCamera : Camera ℝ) 50).farPlane) ∧
    getUnhingeMatrix (setNearPlane (sampleCamera : Camera ℝ) 50) =
      ⟨⟨1, 0, 0, 0⟩, ⟨0, 1, 0, 0⟩, ⟨0, 0, 2 / 3, -1⟩, ⟨0, 0, 5 / 3, 0⟩⟩ ∧
    (getUnhingeMatrix (setNearPlane (sampleCamera : Camera ℝ) 50)).c2.z ≠
      -(1 / (-((1 / 10 : ℝ) / 100) + 1)) ∧
    (getUnhingeMatrix (setNearPlane (sampleCamera : Camera ℝ) 50)).c3.z ≠
      -((1 / 10 : ℝ) / 100) / (-((1 / 10 : ℝ) / 100) + 1) := by
  norm_num [sampleCamera, setNearPlane, getUnhingeMatrix, getNearPlane, getFarPlane]

/-- C7: with valid parameters (view angle strictly between 0 and 180 degrees,
`0 < nearPlane < farPlane`, positive screen width and height) `getScaleMatrix()`
is the diagonal matrix `1/w_half, 1/h_half, 1/farPlane, 1`, where
`h_half = tan(viewAngle/2) * farPlane` for the stored angle in radians and
`w_half = h_half * (screenWidth / screenHeight)`. -/
theorem getScaleMatrix_valid (cam : Camera ℝ) (hv0 : 0 < getViewAngle cam)
    (hv1 : getViewAngle cam < 180) (hn : 0 < getNearPlane cam)
    (hnf : getNearPlane cam < getFarPlane cam) (hw : 0 < getScreenWidth cam)
    (hh : 0 < getScreenHeight cam) :
    getScaleMatrix cam =
      ⟨⟨1 / (Real.tan (cam.viewAngle / 2) * cam.farPlane *
          ((cam.screenWidth : ℝ) / (cam.screenHeight : ℝ))), 0, 0, 0⟩,
        ⟨0, 1 / (Real.tan (cam.viewAngle / 2) * cam.farPlane), 0, 0⟩,
        ⟨0, 0, 1 / cam.farPlane, 0⟩, ⟨0, 0, 0, 1⟩⟩ := by
  have hc : (0 : ℝ) < 180 / Real.pi := div_pos (by norm_num) Real.pi_pos
  have e0 : 0 < cam.viewAngle := by
    have h : 0 < cam.viewAngle * (180 / Real.pi) := hv0
    exact (mul_pos_iff_of_pos_right hc).1 h
  have e1 : cam.viewAngle < Real.pi := by
    have h : cam.viewAngle * (180 / Real.pi) < 180 := hv1
    have h2 : Real.pi * (180 / Real.pi) = 180 := by field_simp
    have h3 : cam.viewAngle * (180 / Real.pi) < Real.pi * (180 / Real.pi) := by
      rw [h2]
      exact h
    exact lt_of_mul_lt_mul_right h3 hc.le
  exact getScaleMatrix_of_valid cam e0 e1 hn hnf hw hh

/-- C8: entry by entry, `getProjectionMatrix()` is the matrix product
`getUnhingeMatrix() * getScaleMatrix()`: entry `[c][r]` is the sum over `k` of
`unhinge[k][r] * scale[c][k]`. -/
theorem getProjectionMatrix_entries (cam : Camera ℝ) (c r : Fin 4) :
    (getProjectionMatrix cam).get c r =
      ∑ k : Fin 4, (getUnhingeMatrix cam).get k r * (getScaleMatrix cam).get c k := by
  rw [getProjectionMatrix, mul_get]

/-- Witness of C7 at the sample camera. -/
theorem getScaleMatrix_valid_witness :
    (0 < getViewAngle (sampleCamera : Camera ℝ) ∧ getViewAngle (sampleCamera : Camera ℝ) < 180 ∧
      0 < getNearPlane (sampleCamera : Camera ℝ) ∧
      getNearPlane (sampleCamera : Camera ℝ) < getFarPlane (sampleCamera : Camera ℝ) ∧
      0 < getScreenWidth (sampleCamera : Camera ℝ) ∧
      0 < getScreenHeight (sampleCamera : Camera ℝ)) ∧
    getScaleMatrix (sampleCamera : Camera ℝ) =
      ⟨⟨1 / (Real.tan ((sampleCamera : Camera ℝ).viewAngle / 2) *
          (sampleCamera : Camera ℝ).farPlane *
          (((sampleCamera : Camera ℝ).screenWidth : ℝ) /
            ((sampleCamera : Camera ℝ).screenHeight : ℝ))), 0, 0, 0⟩,
        ⟨0, 1 / (Real.tan ((sampleCamera : Camera ℝ).viewAngle / 2) *
          (sampleCamera : Camera ℝ).farPlane), 0, 0⟩,
        ⟨0, 0, 1 / (sampleCamera : Camera ℝ).farPlane, 0⟩, ⟨0, 0, 0, 1⟩⟩ := by
  have h0 : getViewAngle (sampleCamera : Camera ℝ) = 60 := by
    simp only [getViewAngle, sampleCamera, degrees_radians]
  have a1 : 0 < getViewAngle (sampleCamera : Camera ℝ) := by rw [h0]; norm_num
  have a2 : getViewAngle (sampleCamera : Camera ℝ) < 180 := by rw [h0]; norm_num
  have a3 : 0 < getNearPlane (sampleCamera : Camera ℝ) := by
    norm_num [getNearPlane, sampleCamera]
  have a4 : getNearPlane (sampleCamera : Camera ℝ) < getFarPlane (sampleCamera : Camera ℝ) := by
    norm_num [getNearPlane, getFarPlane, sampleCamera]
  have a5 : 0 < getScreenWidth (sampleCamera : Camera ℝ) := by
    norm_num [getScreenWidth, sampleCamera]
  have a6 : 0 < getScreenHeight (sampleCamera : Camera ℝ) := by
    norm_num [getScreenHeight, sampleCamera]
  exact ⟨⟨a1, a2, a3, a4, a5, a6⟩, getScaleMatrix_valid sampleCamera a1 a2 a3 a4 a5 a6⟩

/-- C9 (evaluation at `lookVec = up = (0,0,1)`, and at `lookVec = 0`): the
call does not leave the camera as it was; the normalisation of the zero cross
product, respectively of the zero look vector, divides by zero. -/
theorem orientLookVec_degenerate_undefined :
    cross (⟨0, 0, 1⟩ : Vec3 ℝ) ⟨0, 0, 1⟩ = Vec3.zero ∧
    orientLookVec (sampleCamera : Camera ℝ) ⟨0, 0, 0⟩ ⟨0, 0, 1⟩ ⟨0, 0, 1⟩ = none ∧
    orientLookVec (sampleCamera : Camera ℝ) ⟨0, 0, 0⟩ ⟨0, 0, 0⟩ ⟨0, 1, 0⟩ = none := by
  have e1 : normalize (⟨0, 0, 1⟩ : Vec3 ℝ) = some ⟨0, 0, 1⟩ :=
    normalize_of_unit _ (by norm_num [dot])
  have e2 : cross (⟨0, 0, 1⟩ : Vec3 ℝ) ⟨0, 0, 1⟩ = Vec3.zero := by
    simp [cross, Vec3.zero]
  have e3 : normalize (⟨0, 0, 0⟩ : Vec3 ℝ) = none := normalize_zero
  refine ⟨e2, ?_, ?_⟩
  · simp only [orientLookVec, e1, e2, normalize_zero, Option.bind_eq_bind, Option.some_bind,
      Option.none_bind]
  · simp only [orientLookVec, e3, Option.bind_eq_bind, Option.none_bind]

/-- C10 (as stated, refuted): with look vector `(0,2,0)` and up vector
`(0,1,0)`, non-zero and parallel, `rotateV(90)` replaces the look vector by
`(0,1,0)`, so it is not a no-op. -/
theorem rotateV_parallel_not_noop :
    (parallelCamera : Camera ℝ).lookVector = ⟨0, 2, 0⟩ ∧
    (parallelCamera : Camera ℝ).upVector = ⟨0, 1, 0⟩ ∧
    cross (parallelCamera : Camera ℝ).lookVector (parallelCamera : Camera ℝ).upVector =
      Vec3.zero ∧
    rotateV (parallelCamera : Camera ℝ) 90 =
      some { (parallelCamera : Camera ℝ) with lookVector := ⟨0, 1, 0⟩ } ∧
    rotateV (parallelCamera : Camera ℝ) 90 ≠ some parallelCamera := by
  have hp : cross (parallelCamera : Camera ℝ).lookVector (parallelCamera : Camera ℝ).upVector =
      Vec3.zero := by
    simp [parallelCamera, cross, Vec3.zero]
  have h := rotateV_of_parallel (parallelCamera : Camera ℝ) 90
    (by simp [parallelCamera, Vec3.zero]) (by simp [parallelCamera, Vec3.zero]) hp
  have hd : dot (parallelCamera : Camera ℝ).lookVector (parallelCamera : Camera ℝ).lookVector =
      4 := by
    norm_num [parallelCamera, dot]
  have hv : (parallelCamera : Camera ℝ).lookVector.scale (1 / Real.sqrt 4) = ⟨0, 1, 0⟩ := by
    rw [sqrt_four]
    norm_num [parallelCamera, Vec3.scale]
  rw [hd, hv] at h
  refine ⟨rfl, rfl, hp, h, ?_⟩
  rw [h]
  intro e
  have e1 := congrArg (fun c => c.lookVector.y) (Option.some.inj e)
  norm_num [parallelCamera] at e1

/-- C10 (amended): with non-zero parallel look and up vectors and any angle,
`rotateU` is a no-op, `rotateV` changes nothing but the look vector, which it
divides by its length, and `rotateW` changes nothing but the up vector, which
it divides by its length; so `rotateV` is a no-op when the look vector has
length 1, and `rotateW` is a no-op when the up vector has length 1. -/
theorem rotations_of_parallel (cam : Camera ℝ) (deg : ℝ) (hl : cam.lookVector ≠ Vec3.zero)
    (hu : cam.upVector ≠ Vec3.zero) (hp : cross cam.lookVector cam.upVector = Vec3.zero) :
    rotateU cam deg = some cam ∧
    rotateV cam deg =
      some { cam with lookVector := cam.lookVector.scale (1 / length cam.lookVector) } ∧
    rotateW cam deg =
      some { cam with upVector := cam.upVector.scale (1 / length cam.upVector) } ∧
    (length cam.lookVector = 1 → rotateV cam deg = some cam) ∧
    (length cam.upVector = 1 → rotateW cam deg = some cam) := by
  have hV := rotateV_of_parallel cam deg hl hu hp
  have hW := rotateW_of_parallel cam deg hl hu hp
  refine ⟨rotateU_of_parallel cam deg hp, hV, hW, ?_, ?_⟩
  · intro h1
    rw [hV, scale_inv_sqrt_of_unit _ ((length_eq_one _).1 h1)]
  · intro h1
    rw [hW, scale_inv_sqrt_of_unit _ ((length_eq_one _).1 h1)]

/-- Witness of the amended C10 at look vector `(0,2,0)`, up vector `(0,1,0)`
and 30 degrees. -/
theorem rotations_of_parallel_witness :
    ((parallelCamera : Camera ℝ).lookVector ≠ Vec3.zero ∧
      (parallelCamera : Camera ℝ).upVector ≠ Vec3.zero ∧
      cross (parallelCamera : Camera ℝ).lookVector (parallelCamera : Camera ℝ).upVector =
        Vec3.zero) ∧
    (rotateU (parallelCamera : Camera ℝ) 30 = some parallelCamera ∧
      rotateV (parallelCamera : Camera ℝ) 30 =
        some { (parallelCamera : Camera ℝ) with
          lookVector := (parallelCamera : Camera ℝ).lookVector.scale
            (1 / length (parallelCamera : Camera ℝ).lookVector) } ∧
      rotateW (parallelCamera : Camera ℝ) 30 =
        some { (parallelCamera : Camera ℝ) with
          upVector := (parallelCamera : Camera ℝ).upVector.scale
            (1 / length (parallelCamera : Camera ℝ).upVector) } ∧
      (length (parallelCamera : Camera ℝ).lookVector = 1 →
        rotateV (parallelCamera : Camera ℝ) 30 = some parallelCamera) ∧
      (length (parallelCamera : Camera ℝ).upVector = 1 →
        rotateW (parallelCamera : Camera ℝ) 30 = some parallelCamera)) :=
  ⟨⟨by simp [parallelCamera, Vec3.zero], by simp [parallelCamera, Vec3.zero],
      by simp [parallelCamera, cross, Vec3.zero]⟩,
    rotations_of_parallel parallelCamera 30 (by simp [parallelCamera, Vec3.zero])
      (by simp [parallelCamera, Vec3.zero]) (by simp [parallelCamera, cross, Vec3.zero])⟩

/-- C11: when the look vector or the up vector is the zero vector, each of
`rotateU`, `rotateV` and `rotateW` returns at its first guard and leaves the
whole camera state unchanged, for every angle. -/
theorem rotations_of_zero_vector (cam : Camera ℝ) (deg : ℝ)
    (h : cam.lookVector = Vec3.zero ∨ cam.upVector = Vec3.zero) :
    rotateU cam deg = some cam ∧ rotateV cam deg = some cam ∧ rotateW cam deg = some cam := by
  have g : length cam.lookVector = 0 ∨ length cam.upVector = 0 := by
    rcases h with h | h
    · exact Or.inl ((length_eq_zero _).2 h)
    · exact Or.inr ((length_eq_zero _).2 h)
  refine ⟨?_, ?_, ?_⟩
  · simp only [rotateU, if_pos g]
  · simp only [rotateV, if_pos g]
  · simp only [rotateW, if_pos g]

/-- Witness of C11 at the sample camera with its up vector zeroed. -/
theorem rotations_of_zero_vector_witness :
    (({ (sampleCamera : Camera ℝ) with upVector := Vec3.zero }).lookVector = Vec3.zero ∨
      ({ (sampleCamera : Camera ℝ) with upVector := Vec3.zero }).upVector = Vec3.zero) ∧
    (rotateU { (sampleCamera : Camera ℝ) with upVector := Vec3.zero } 45 =
        some { (sampleCamera : Camera ℝ) with upVector := Vec3.zero } ∧
      rotateV { (sampleCamera : Camera ℝ) with upVector := Vec3.zero } 45 =
        some { (sampleCamera : Camera ℝ) with upVector := Vec3.zero } ∧
      rotateW { (sampleCamera : Camera ℝ) with upVector := Vec3.zero } 45 =
        some { (sampleCamera : Camera ℝ) with upVector := Vec3.zero }) :=
  ⟨Or.inr rfl,
    rotations_of_zero_vector { (sampleCamera : Camera ℝ) with upVector := Vec3.zero } 45
      (Or.inr rfl)⟩

/-- C12: when the look vector and the up vector have unit length, each of
`rotateU(0)`, `rotateV(0)` and `rotateW(0)` succeeds and leaves the look vector
and the up vector unchanged. -/
theorem rotations_by_zero (cam : Camera ℝ) (hl : length cam.lookVector = 1)
    (hu : length cam.upVector = 1) :
    (∃ c, rotateU cam 0 = some c ∧ c.lookVector = cam.lookVector ∧
      c.upVector = cam.upVector) ∧
    (∃ c, rotateV cam 0 = some c ∧ c.lookVector = cam.lookVector ∧
      c.upVector = cam.upVector) ∧
    (∃ c, rotateW cam 0 = some c ∧ c.lookVector = cam.lookVector ∧
      c.upVector = cam.upVector) := by
  rw [length_eq_one] at hl hu
  exact ⟨⟨cam, rotateU_zero cam hl hu, rfl, rfl⟩,
    ⟨cam, rotateV_zero cam hl (ne_zero_of_unit _ hu), rfl, rfl⟩,
    ⟨cam, rotateW_zero cam (ne_zero_of_unit _ hl) hu, rfl, rfl⟩⟩

/-- Witness of C12 at the sample camera. -/
theorem rotations_by_zero_witness :
    (length (sampleCamera : Camera ℝ).lookVector = 1 ∧
      length (sampleCamera : Camera ℝ).upVector = 1) ∧
    ((∃ c, rotateU (sampleCamera : Camera ℝ) 0 = some c ∧
        c.lookVector = (sampleCamera : Camera ℝ).lookVector ∧
        c.upVector = (sampleCamera : Camera ℝ).upVector) ∧
      (∃ c, rotateV (sampleCamera : Camera ℝ) 0 = some c ∧
        c.lookVector = (sampleCamera : Camera ℝ).lookVector ∧
        c.upVector = (sampleCamera : Camera ℝ).upVector) ∧
      (∃ c, rotateW (sampleCamera : Camera ℝ) 0 = some c ∧
        c.lookVector = (sampleCamera : Camera ℝ).lookVector ∧
        c.upVector = (sampleCamera : Camera ℝ).upVector)) :=
  ⟨⟨by simp [sampleCamera, length, dot], by simp [sampleCamera, length, dot]⟩,
    rotations_by_zero sampleCamera (by simp [sampleCamera, length, dot])
      (by simp [sampleCamera, length, dot])⟩

/-- C13: after `setFarPlane(f)`, `getFarPlane()` is `f` when `f` is above the
near plane stored at the time of the call and `20` otherwise; the near plane is
unchanged. -/
theorem setFarPlane_result (cam : Camera ℝ) (f : ℝ) :
    getFarPlane (setFarPlane cam f) = (if getNearPlane cam < f then f else 20) ∧
    getNearPlane (setFarPlane cam f) = getNearPlane cam := by
  by_cases h : f ≤ cam.nearPlane
  · have e : setFarPlane cam f = { cam with farPlane := 20 } := by
      simp only [setFarPlane, if_pos h]
    rw [e]
    exact ⟨(if_neg (not_lt.2 h)).symm, rfl⟩
  · have e : setFarPlane cam f = { cam with farPlane := f } := by
      simp only [setFarPlane, if_neg h]
    rw [e]
    exact ⟨(if_pos (not_le.1 h)).symm, rfl⟩

/-- C14: after `setViewAngle(deg)`, `getViewAngle()` is `deg` when
`0 < deg < 180` and `60` otherwise; in both cases it lies strictly between 0
and 180 degrees. -/
theorem setViewAngle_result (cam : Camera ℝ) (deg : ℝ) :
    getViewAngle (setViewAngle cam deg) = (if 0 < deg ∧ deg < 180 then deg else 60) ∧
    0 < getViewAngle (setViewAngle cam deg) ∧ getViewAngle (setViewAngle cam deg) < 180 := by
  by_cases h : deg ≤ 0 ∨ deg ≥ 180
  · have e : setViewAngle cam deg = { cam with viewAngle := radians 60 } := by
      simp only [setViewAngle, if_pos h]
    have hn : ¬ (0 < deg ∧ deg < 180) := by
      rintro ⟨h1, h2⟩
      rcases h with h | h
      · exact absurd h1 (not_lt.2 h)
      · exact absurd h2 (not_lt.2 h)
    have g : getViewAngle (setViewAngle cam deg) = 60 := by
      rw [e]
      exact degrees_radians 60
    rw [g, if_neg hn]
    norm_num
  · have e : setViewAngle cam deg = { cam with viewAngle := radians deg } := by
      simp only [setViewAngle, if_neg h]
    rw [not_or, not_le, ge_iff_le, not_le] at h
    have g : getViewAngle (setViewAngle cam deg) = deg := by
      rw [e]
      exact degrees_radians deg
    rw [g, if_pos h]
    exact ⟨rfl, h.1, h.2⟩

/-- C15: after `setNearPlane(n)`, `getNearPlane()` is `n` when `n > 0` and
`0.01` otherwise; the far plane is unchanged. -/
theorem setNearPlane_result (cam : Camera ℝ) (n : ℝ) :
    getNearPlane (setNearPlane cam n) = (if 0 < n then n else 1 / 100) ∧
    getFarPlane (setNearPlane cam n) = getFarPlane cam := by
  by_cases h : n ≤ 0
  · have e : setNearPlane cam n = { cam with nearPlane := 1 / 100 } := by
      simp only [setNearPlane, if_pos h]
    rw [e]
    exact ⟨(if_neg (not_lt.2 h)).symm, rfl⟩
  · have e : setNearPlane cam n = { cam with nearPlane := n } := by
      simp only [setNearPlane, if_neg h]
    rw [e]
    exact ⟨(if_pos (not_le.1 h)).symm, rfl⟩

/-- C16: after `setScreenSize(w, h)` the stored size is `(w, h)` when both are
positive and `(800, 600)` otherwise; in both cases the stored width and height
are positive. -/
theorem setScreenSize_result (cam : Camera ℝ) (w h : Int) :
    (getScreenWidth (setScreenSize cam w h), getScreenHeight (setScreenSize cam w h)) =
      (if 0 < w ∧ 0 < h then (w, h) else (800, 600)) ∧
    0 < getScreenWidth (setScreenSize cam w h) ∧ 0 < getScreenHeight (setScreenSize cam w h) := by
  by_cases g : w ≤ 0 ∨ h ≤ 0
  · have e : setScreenSize cam w h = { cam with screenWidth := 800, screenHeight := 600 } := by
      simp only [setScreenSize, if_pos g]
    have hn : ¬ (0 < w ∧ 0 < h) := by
      rintro ⟨h1, h2⟩
      rcases g with g | g
      · exact absurd h1 (not_lt.2 g)
      · exact absurd h2 (not_lt.2 g)
    rw [e, if_neg hn]
    exact ⟨rfl, show (0 : Int) < 800 by decide, show (0 : Int) < 600 by decide⟩
  · have e : setScreenSize cam w h = { cam with screenWidth := w, screenHeight := h } := by
      simp only [setScreenSize, if_neg g]
    rw [not_or, not_le, not_le] at g
    rw [e, if_pos g]
    exact ⟨rfl, g.1, g.2⟩

/-- C19: each rotation primitive keeps an orthonormal basis orthonormal: from
a state with unit look and up vectors that are orthogonal, `rotateU`, `rotateV`
and `rotateW` succeed for every angle and the state they return again has unit
look and up vectors with dot product zero. -/
theorem rotations_preserve_orthonormal (cam : Camera ℝ) (deg : ℝ) (h : cam.orthonormal) :
    (∃ c, rotateU cam deg = some c ∧ c.orthonormal) ∧
    (∃ c, rotateV cam deg = some c ∧ c.orthonormal) ∧
    (∃ c, rotateW cam deg = some c ∧ c.orthonormal) := by
  have hU := rotateU_orthonormal_result cam deg h
  have hU1 := rotateU_of_orthonormal cam deg h
  obtain ⟨hl, hu, hlu⟩ := h
  rw [length_eq_one] at hl hu
  refine ⟨⟨_, hU1, hU⟩, ⟨_, rotateV_of_unit cam deg hl hu, ?_⟩,
    ⟨_, rotateW_of_unit cam deg hl hu, ?_⟩⟩
  · refine ⟨?_, (length_eq_one _).2 hu, ?_⟩
    · rw [length_eq_one]
      show dot (rodrigues _ _ _) (rodrigues _ _ _) = 1
      rw [dot_rodrigues _ _ _ _ hu, hl]
    · show dot (rodrigues cam.upVector (radians deg) cam.lookVector) cam.upVector = 0
      have e := dot_rodrigues cam.upVector cam.lookVector cam.upVector (radians deg) hu
      rw [rodrigues_axis _ _ hu] at e
      rw [e, hlu]
  · refine ⟨(length_eq_one _).2 hl, ?_, ?_⟩
    · rw [length_eq_one]
      show dot (rodrigues _ _ _) (rodrigues _ _ _) = 1
      rw [dot_rodrigues _ _ _ _ hl, hu]
    · show dot cam.lookVector (rodrigues cam.lookVector (radians deg) cam.upVector) = 0
      have e := dot_rodrigues cam.lookVector cam.lookVector cam.upVector (radians deg) hl
      rw [rodrigues_axis _ _ hl] at e
      rw [e, hlu]

/-- Witness of C19 at the sample camera and 30 degrees. -/
theorem rotations_preserve_orthonormal_witness :
    (sampleCamera : Camera ℝ).orthonormal ∧
    ((∃ c, rotateU (sampleCamera : Camera ℝ) 30 = some c ∧ c.orthonormal) ∧
      (∃ c, rotateV (sampleCamera : Camera ℝ) 30 = some c ∧ c.orthonormal) ∧
      (∃ c, rotateW (sampleCamera : Camera ℝ) 30 = some c ∧ c.orthonormal)) :=
  ⟨by simp [Camera.orthonormal, sampleCamera, length, dot],
    rotations_preserve_orthonormal sampleCamera 30
      (by simp [Camera.orthonormal, sampleCamera, length, dot])⟩

/-- C18: the pivot point of `rotate` is irrelevant: for a non-zero axis, any
angle and any two points `p` and `q`, `rotate(p, axis, deg)` and
`rotate(q, axis, deg)` give the same result, in particular the result of the
rotation about the axis through the origin; and with non-zero look and up
vectors that result exists, so both calls produce the same look and up
vectors. -/
theorem rotate_pivot_irrelevant (cam : Camera ℝ) (p q axis : Vec3 ℝ) (deg : ℝ)
    (ha : axis ≠ Vec3.zero) :
    rotate cam p axis deg = rotate cam q axis deg ∧
    rotate cam p axis deg = rotate cam Vec3.zero axis deg ∧
    (cam.lookVector ≠ Vec3.zero → cam.upVector ≠ Vec3.zero →
      ∃ c1 c2, rotate cam p axis deg = some c1 ∧ rotate cam q axis deg = some c2 ∧
        c1.lookVector = c2.lookVector ∧ c1.upVector = c2.upVector) := by
  have hpq : rotate cam p axis deg = rotate cam q axis deg := by
    rw [rotate_eq, rotate_eq]
  refine ⟨hpq, by rw [rotate_eq, rotate_eq], ?_⟩
  intro hl hu
  obtain ⟨R, hR, hact⟩ := rotateMat_identity_action (radians deg) axis ha
  have hn := dot_normalized axis ha
  have nl : (R.mulVec (vec4 cam.lookVector 0)).xyz ≠ Vec3.zero := by
    intro e
    have e1 := dot_rodrigues _ cam.lookVector cam.lookVector (radians deg) hn
    rw [← hact, e] at e1
    exact hl ((dot_self_eq_zero _).1 (by rw [← e1]; simp [dot, Vec3.zero]))
  have nu : (R.mulVec (vec4 cam.upVector 0)).xyz ≠ Vec3.zero := by
    intro e
    have e1 := dot_rodrigues _ cam.upVector cam.upVector (radians deg) hn
    rw [← hact, e] at e1
    exact hu ((dot_self_eq_zero _).1 (by rw [← e1]; simp [dot, Vec3.zero]))
  have hp : rotate cam p axis deg = some { cam with
      lookVector := (R.mulVec (vec4 cam.lookVector 0)).xyz.scale
        (1 / Real.sqrt (dot (R.mulVec (vec4 cam.lookVector 0)).xyz
          (R.mulVec (vec4 cam.lookVector 0)).xyz))
      upVector := (R.mulVec (vec4 cam.upVector 0)).xyz.scale
        (1 / Real.sqrt (dot (R.mulVec (vec4 cam.upVector 0)).xyz
          (R.mulVec (vec4 cam.upVector 0)).xyz)) } := by
    rw [rotate_eq, hR]
    simp only [Option.some_bind, normalize_of_ne_zero _ nl, normalize_of_ne_zero _ nu]
  exact ⟨_, _, hp, hpq ▸ hp, rfl, rfl⟩

/-- Witness of C18 at the sample camera, pivots `(1,2,3)` and `(4,5,6)`, axis
`(0,0,1)` and 30 degrees. -/
theorem rotate_pivot_irrelevant_witness :
    ((⟨0, 0, 1⟩ : Vec3 ℝ) ≠ Vec3.zero ∧ (sampleCamera : Camera ℝ).lookVector ≠ Vec3.zero ∧
      (sampleCamera : Camera ℝ).upVector ≠ Vec3.zero) ∧
    rotate (sampleCamera : Camera ℝ) ⟨1, 2, 3⟩ ⟨0, 0, 1⟩ 30 =
      rotate (sampleCamera : Camera ℝ) ⟨4, 5, 6⟩ ⟨0, 0, 1⟩ 30 ∧
    rotate (sampleCamera : Camera ℝ) ⟨1, 2, 3⟩ ⟨0, 0, 1⟩ 30 =
      rotate (sampleCamera : Camera ℝ) Vec3.zero ⟨0, 0, 1⟩ 30 ∧
    ∃ c1 c2, rotate (sampleCamera : Camera ℝ) ⟨1, 2, 3⟩ ⟨0, 0, 1⟩ 30 = some c1 ∧
      rotate (sampleCamera : Camera ℝ) ⟨4, 5, 6⟩ ⟨0, 0, 1⟩ 30 = some c2 ∧
      c1.lookVector = c2.lookVector ∧ c1.upVector = c2.upVector :=
  ⟨⟨by simp [Vec3.zero], by simp [sampleCamera, Vec3.zero], by simp [sampleCamera, Vec3.zero]⟩,
    (rotate_pivot_irrelevant sampleCamera ⟨1, 2, 3⟩ ⟨4, 5, 6⟩ ⟨0, 0, 1⟩ 30
      (by simp [Vec3.zero])).1,
    (rotate_pivot_irrelevant sampleCamera ⟨1, 2, 3⟩ ⟨4, 5, 6⟩ ⟨0, 0, 1⟩ 30
      (by simp [Vec3.zero])).2.1,
    (rotate_pivot_irrelevant sampleCamera ⟨1, 2, 3⟩ ⟨4, 5, 6⟩ ⟨0, 0, 1⟩ 30
      (by simp [Vec3.zero])).2.2 (by simp [sampleCamera, Vec3.zero])
      (by simp [sampleCamera, Vec3.zero])⟩

/-- C20: with valid parameters the projection matrix sends the camera-space
point `(x, y, -nearPlane, 1)` to a homogeneous vector with `z = 0` and
`w = nearPlane / farPlane > 0`, and the point `(x, y, -farPlane, 1)` to one
with `z = 1` and `w = 1`. -/
theorem projection_depth_range (cam : Camera ℝ) (x y : ℝ) (hv0 : 0 < getViewAngle cam)
    (hv1 : getViewAngle cam < 180) (hn : 0 < getNearPlane cam)
    (hnf : getNearPlane cam < getFarPlane cam) (hw : 0 < getScreenWidth cam)
    (hh : 0 < getScreenHeight cam) :
    ((getProjectionMatrix cam).mulVec ⟨x, y, -getNearPlane cam, 1⟩).z = 0 ∧
    ((getProjectionMatrix cam).mulVec ⟨x, y, -getNearPlane cam, 1⟩).w =
      getNearPlane cam / getFarPlane cam ∧
    0 < getNearPlane cam / getFarPlane cam ∧
    ((getProjectionMatrix cam).mulVec ⟨x, y, -getFarPlane cam, 1⟩).z = 1 ∧
    ((getProjectionMatrix cam).mulVec ⟨x, y, -getFarPlane cam, 1⟩).w = 1 := by
  have hc : (0 : ℝ) < 180 / Real.pi := div_pos (by norm_num) Real.pi_pos
  have e0 : 0 < cam.viewAngle := by
    have h : 0 < cam.viewAngle * (180 / Real.pi) := hv0
    exact (mul_pos_iff_of_pos_right hc).1 h
  have e1 : cam.viewAngle < Real.pi := by
    have h : cam.viewAngle * (180 / Real.pi) < 180 := hv1
    have h2 : Real.pi * (180 / Real.pi) = 180 := by field_simp
    have h3 : cam.viewAngle * (180 / Real.pi) < Real.pi * (180 / Real.pi) := by
      rw [h2]
      exact h
    exact lt_of_mul_lt_mul_right h3 hc.le
  have hS := getScaleMatrix_of_valid cam e0 e1 hn hnf hw hh
  simp only [getNearPlane, getFarPlane] at hn hnf ⊢
  have hf : 0 < cam.farPlane := lt_trans hn hnf
  have hf0 : cam.farPlane ≠ 0 := hf.ne'
  have hd : -(cam.nearPlane / cam.farPlane) + 1 ≠ 0 := by
    have : cam.nearPlane / cam.farPlane < 1 := (div_lt_one hf).2 hnf
    linarith
  have hd2 : -cam.nearPlane + cam.farPlane ≠ 0 := by linarith
  simp only [getProjectionMatrix, hS, getUnhingeMatrix, getNearPlane, getFarPlane, Mat4.mul,
    Mat4.mulVec, Vec4.add, Vec4.scale]
  refine ⟨?_, ?_, div_pos hn hf, ?_, ?_⟩
  · field_simp
    ring
  · field_simp
  · field_simp
    ring
  · field_simp

/-- C17: on a camera with an orthonormal basis `translate(v)` succeeds, changes
no field but the look vector, and sets the look vector to
`lookVector + v.x * right + v.y * upVector - v.z * lookVector` with
`right = cross(lookVector, upVector)`: the direction `v` mapped to world space
by the rotational part of the inverse model-view matrix. -/
theorem translate_of_orthonormal (cam : Camera ℝ) (v : Vec3 ℝ) (h : cam.orthonormal) :
    translate cam v = some { cam with
      lookVector := ((cam.lookVector.add ((cross cam.lookVector cam.upVector).scale v.x)).add
        (cam.upVector.scale v.y)).sub (cam.lookVector.scale v.z) } := by
  simp only [translate, getInverseModelViewMatrix_of_orthonormal cam h, Option.bind_eq_bind,
    Option.some_bind, Option.pure_def, Option.some.injEq]
  congr 1
  simp only [Mat4.mulVec, vec4, Vec4.xyz, Vec4.add, Vec4.scale, Vec3.add, Vec3.sub, Vec3.scale,
    Vec3.mk.injEq]
  refine ⟨?_, ?_, ?_⟩ <;> ring

/-- Witness of C17 at the sample camera and `v = (1, 2, 3)`. -/
theorem translate_of_orthonormal_witness :
    (sampleCamera : Camera ℝ).orthonormal ∧
    translate (sampleCamera : Camera ℝ) ⟨1, 2, 3⟩ = some { (sampleCamera : Camera ℝ) with
      lookVector := (((sampleCamera : Camera ℝ).lookVector.add
        ((cross (sampleCamera : Camera ℝ).lookVector (sampleCamera : Camera ℝ).upVector).scale
          1)).add ((sampleCamera : Camera ℝ).upVector.scale 2)).sub
        ((sampleCamera : Camera ℝ).lookVector.scale 3) } :=
  ⟨by simp [Camera.orthonormal, sampleCamera, length, dot],
    translate_of_orthonormal sampleCamera ⟨1, 2, 3⟩
      (by simp [Camera.orthonormal, sampleCamera, length, dot])⟩

/-- Witness of C20 at the sample camera and the point `(1, 2)`. -/
theorem projection_depth_range_witness :
    (0 < getViewAngle (sampleCamera : Camera ℝ) ∧ getViewAngle (sampleCamera : Camera ℝ) < 180 ∧
      0 < getNearPlane (sampleCamera : Camera ℝ) ∧
      getNearPlane (sampleCamera : Camera ℝ) < getFarPlane (sampleCamera : Camera ℝ) ∧
      0 < getScreenWidth (sampleCamera : Camera ℝ) ∧
      0 < getScreenHeight (sampleCamera : Camera ℝ)) ∧
    (((getProjectionMatrix (sampleCamera : Camera ℝ)).mulVec
        ⟨1, 2, -getNearPlane (sampleCamera : Camera ℝ), 1⟩).z = 0 ∧
      ((getProjectionMatrix (sampleCamera : Camera ℝ)).mulVec
        ⟨1, 2, -getNearPlane (sampleCamera : Camera ℝ), 1⟩).w =
        getNearPlane (sampleCamera : Camera ℝ) / getFarPlane (sampleCamera : Camera ℝ) ∧
      0 < getNearPlane (sampleCamera : Camera ℝ) / getFarPlane (sampleCamera : Camera ℝ) ∧
      ((getProjectionMatrix (sampleCamera : Camera ℝ)).mulVec
        ⟨1, 2, -getFarPlane (sampleCamera : Camera ℝ), 1⟩).z = 1 ∧
      ((getProjectionMatrix (sampleCamera : Camera ℝ)).mulVec
        ⟨1, 2, -getFarPlane (sampleCamera : Camera ℝ), 1⟩).w = 1) := by
  have h0 : getViewAngle (sampleCamera : Camera ℝ) = 60 := by
    simp only [getViewAngle, sampleCamera, degrees_radians]
  have a1 : 0 < getViewAngle (sampleCamera : Camera ℝ) := by rw [h0]; norm_num
  have a2 : getViewAngle (sampleCamera : Camera ℝ) < 180 := by rw [h0]; norm_num
  have a3 : 0 < getNearPlane (sampleCamera : Camera ℝ) := by
    norm_num [getNearPlane, sampleCamera]
  have a4 : getNearPlane (sampleCamera : Camera ℝ) < getFarPlane (sampleCamera : Camera ℝ) := by
    norm_num [getNearPlane, getFarPlane, sampleCamera]
  have a5 : 0 < getScreenWidth (sampleCamera : Camera ℝ) := by
    norm_num [getScreenWidth, sampleCamera]
  have a6 : 0 < getScreenHeight (sampleCamera : Camera ℝ) := by
    norm_num [getScreenHeight, sampleCamera]
  exact ⟨⟨a1, a2, a3, a4, a5, a6⟩, projection_depth_range sampleCamera 1 2 a1 a2 a3 a4 a5 a6⟩

end Claims

end CameraSpec
